import Mathlib

/-!
Verification of the veryl simulator core (crates/simulator) against its
natural-language specification.

The development shallowly embeds the two source files that the claims
reference:

* crates/simulator/src/model.rs  : expression IR, its evaluator, the
  assignment collector helpers (literal and factor translation), and the
  evaluation engine (Model).
* crates/simulator/src/simulator.rs : the discrete-event scheduler
  (Simulator) with its per-domain half-period stepping.

Modelling conventions:

* Rust usize / u64 values are embedded as Nat.  The platform word is taken
  to be 64 bits wide, so wrap-around arithmetic is reduction modulo
  W = 2 to the 64.  The release profile of Rust wraps on add and mul
  overflow; the debug profile aborts instead.  The main evaluator
  Expr.eval below follows the wrapping semantics, and a separate checked
  evaluator Expr.evalChecked returns none exactly where a debug build
  aborts.  Rust saturating_sub on unsigned values is exactly Nat
  subtraction, and Rust unsigned division is exactly Nat division.
* Rust HashMap of String keys is embedded as an association list
  List (String x value) with first-match lookup; HashMap insert replaces
  the value in place when the key is present and appends otherwise.
  HashMap keys are unique by construction, which the embedding expresses
  as a Nodup hypothesis where a proof needs it.  Iteration order of a
  HashMap is arbitrary in Rust; the embedding fixes it to the list order.
  Every property proved below about iteration is order-insensitive
  (minimum of values, disjointness, key preservation), except where a
  single clock domain makes the order trivial.
* The symbol table and the syntax tree walked by Model::new come from the
  external front end (veryl_analyzer, veryl_parser), which the
  specification declares out of scope and already validated.  Model.new
  below therefore takes the port list with directions and the collected
  assignment IR as explicit arguments and performs exactly the
  construction steps of the source: classify ports, take initial input
  values with default 0, initialize outputs to 0, leave internals empty,
  then run one combinational pass.
-/

namespace VerylSim

/-- Word size of the platform: 2 to the 64. -/
def W : Nat := 2 ^ 64

/-- Largest u64 value, used by Simulator::step as the initial minimum. -/
def UMAX : Nat := 2 ^ 64 - 1

/-! ### Association lists embedding HashMap of String keys -/

/-- First-match lookup, embedding HashMap::get. -/
def alookup {α : Type} : List (String × α) → String → Option α
  | [], _ => none
  | p :: rest, key => if p.1 = key then some p.2 else alookup rest key

/-- Key membership, embedding HashMap::contains_key. -/
def acontains {α : Type} (l : List (String × α)) (k : String) : Bool :=
  (alookup l k).isSome

/-- Insert, embedding HashMap::insert: replace the value in place when the
key is present, append otherwise. -/
def ainsert {α : Type} (l : List (String × α)) (k : String) (v : α) :
    List (String × α) :=
  if acontains l k then l.map (fun p => if p.1 = k then (k, v) else p)
  else l ++ [(k, v)]

/-- The list of keys of an association list. -/
def keysOf {α : Type} (l : List (String × α)) : List String :=
  l.map Prod.fst

/-! ### Expression IR (model.rs, enum Expr) -/

/-- Expression tree, embedding enum Expr of model.rs: constant, variable
reference, add, sub, mul, div, and the unary toggle written Not in the
source. -/
inductive Expr where
  | const : Nat → Expr
  | var : String → Expr
  | add : Expr → Expr → Expr
  | sub : Expr → Expr → Expr
  | mul : Expr → Expr → Expr
  | div : Expr → Expr → Expr
  | toggle : Expr → Expr
deriving DecidableEq

/-- Embedding of Expr::eval of model.rs.  A variable absent from the
environment evaluates to 0 (env.get(name).copied().unwrap_or(0)).  Add and
Mul are usize addition and multiplication, which wrap modulo the word size
in a release build; Sub is saturating_sub, exactly Nat subtraction; Div
checks the divisor first and yields 0 when it is 0; the toggle maps 0 to 1
and everything else to 0. -/
def Expr.eval : Expr → List (String × Nat) → Nat
  | .const v, _ => v
  | .var n, env => (alookup env n).getD 0
  | .add l r, env => (l.eval env + r.eval env) % W
  | .sub l r, env => l.eval env - r.eval env
  | .mul l r, env => (l.eval env * r.eval env) % W
  | .div l r, env =>
    let rv := r.eval env
    if rv ≠ 0 then l.eval env / rv else 0
  | .toggle e, env => if e.eval env = 0 then 1 else 0

/-- Checked evaluation: the debug profile of Rust aborts when an add or a
mul overflows the 64-bit word.  This evaluator returns none exactly where
a debug build of Expr::eval panics, and some of the computed value
otherwise.  Note that Div evaluates the divisor first and skips the left
operand entirely when the divisor is 0, exactly as the source does. -/
def Expr.evalChecked : Expr → List (String × Nat) → Option Nat
  | .const v, _ => some v
  | .var n, env => some ((alookup env n).getD 0)
  | .add l r, env =>
    match l.evalChecked env, r.evalChecked env with
    | some a, some b => if a + b < W then some (a + b) else none
    | _, _ => none
  | .sub l r, env =>
    match l.evalChecked env, r.evalChecked env with
    | some a, some b => some (a - b)
    | _, _ => none
  | .mul l r, env =>
    match l.evalChecked env, r.evalChecked env with
    | some a, some b => if a * b < W then some (a * b) else none
    | _, _ => none
  | .div l r, env =>
    match r.evalChecked env with
    | some rv =>
      if rv ≠ 0 then
        match l.evalChecked env with
        | some a => some (a / rv)
        | none => none
      else some 0
    | none => none
  | .toggle e, env =>
    match e.evalChecked env with
    | some v => some (if v = 0 then 1 else 0)
    | none => none

/-- No intermediate add or mul that the debug build would execute
overflows the word.  The Div case mirrors the evaluation order of the
source: when the divisor evaluates to 0 the left operand is never
evaluated, so it is not required to fit. -/
def Expr.fitsW : Expr → List (String × Nat) → Bool
  | .const _, _ => true
  | .var _, _ => true
  | .add l r, env =>
    l.fitsW env && r.fitsW env && decide (l.eval env + r.eval env < W)
  | .sub l r, env => l.fitsW env && r.fitsW env
  | .mul l r, env =>
    l.fitsW env && r.fitsW env && decide (l.eval env * r.eval env < W)
  | .div l r, env =>
    r.fitsW env && (if r.eval env = 0 then true else l.fitsW env)
  | .toggle e, env => e.fitsW env

/-- Reference semantics transcribed from the words of the specification
and of claim C4: a constant is itself, an unresolved variable is 0, Add
and Mul are ordinary (unbounded) addition and multiplication, Sub is
saturating, Div yields 0 on a zero divisor and the exact quotient
otherwise, and the toggle maps nonzero to 0 and zero to 1. -/
def specEval : Expr → List (String × Nat) → Nat
  | .const v, _ => v
  | .var n, env => (alookup env n).getD 0
  | .add l r, env => specEval l env + specEval r env
  | .sub l r, env => specEval l env - specEval r env
  | .mul l r, env => specEval l env * specEval r env
  | .div l r, env =>
    if specEval r env = 0 then 0 else specEval l env / specEval r env
  | .toggle e, env => if specEval e env = 0 then 1 else 0

/-- Reference semantics amended at the two overflowing operators: Add and
Mul are addition and multiplication reduced modulo the word size; all
other cases read as in the specification. -/
def specEvalWrap : Expr → List (String × Nat) → Nat
  | .const v, _ => v
  | .var n, env => (alookup env n).getD 0
  | .add l r, env => (specEvalWrap l env + specEvalWrap r env) % W
  | .sub l r, env => specEvalWrap l env - specEvalWrap r env
  | .mul l r, env => (specEvalWrap l env * specEvalWrap r env) % W
  | .div l r, env =>
    if specEvalWrap r env = 0 then 0 else specEvalWrap l env / specEvalWrap r env
  | .toggle e, env => if specEvalWrap e env = 0 then 1 else 0

/-! ### Literal and factor translation (model.rs, AssignCollector::convert_factor) -/

/-- The apostrophe character that separates width and base in a based
literal such as 32h10 written with a quote before the h. -/
def quoteChar : Char := Char.ofNat 39

/-- Index of the last occurrence of a character, embedding str::rfind.
Positions are character indices; the source uses byte indices, which
coincide for the ASCII tokens the lexer produces. -/
def lastIdxOf (c : Char) (cs : List Char) : Option Nat :=
  match (cs.reverse).findIdx? (fun x => x = c) with
  | some i => some (cs.length - 1 - i)
  | none => none

/-- Numeric value of one ASCII digit or letter, as char::to_digit. -/
def charDigit (c : Char) : Option Nat :=
  if 48 ≤ c.toNat ∧ c.toNat ≤ 57 then some (c.toNat - 48)
  else if 97 ≤ c.toNat ∧ c.toNat ≤ 122 then some (c.toNat - 87)
  else if 65 ≤ c.toNat ∧ c.toNat ≤ 90 then some (c.toNat - 55)
  else none

/-- Digit value checked against the radix. -/
def digitVal (radix : Nat) (c : Char) : Option Nat :=
  match charDigit c with
  | some d => if d < radix then some d else none
  | none => none

/-- Accumulating digit parser. -/
def parseDigitsAux (radix : Nat) : List Char → Nat → Option Nat
  | [], acc => some acc
  | c :: cs, acc =>
    match digitVal radix c with
    | some d => parseDigitsAux radix cs (acc * radix + d)
    | none => none

/-- Embedding of usize::from_str_radix: an optional leading plus sign,
then a nonempty run of digits valid for the radix; the result must fit in
the 64-bit word (the source checks overflow at every accumulation step,
which for a radix of at least 2 is equivalent to the final value fitting,
because the accumulator is nondecreasing). -/
def fromStrRadix (s : List Char) (radix : Nat) : Option Nat :=
  let s2 := match s with
    | c :: rest => if c = '+' then rest else c :: rest
    | [] => []
  match s2 with
  | [] => none
  | _ =>
    match parseDigitsAux radix s2 0 with
    | some v => if v < W then some v else none
    | none => none

/-- The shapes of syntax_tree::Factor that convert_factor distinguishes.
The syntax tree type itself belongs to the external parser; this inductive
records exactly the match arms of the source together with the token text
the arm inspects. -/
inductive FactorShape where
  | identPlain : String → FactorShape
  | identOther : FactorShape
  | numberBased : String → FactorShape
  | numberBaseLess : String → FactorShape
  | numberOtherIntegral : FactorShape
  | numberReal : FactorShape
  | factorOther : FactorShape
deriving DecidableEq

/-- The radix selected by the character right after the last quote of a
based token; any other character, or none at all, selects 10. -/
def basedRadix : Option Char → Nat
  | some c =>
    if c = 'h' ∨ c = 'H' then 16
    else if c = 'd' ∨ c = 'D' then 10
    else if c = 'b' ∨ c = 'B' then 2
    else if c = 'o' ∨ c = 'O' then 8
    else 10
  | none => 10

/-- Embedding of AssignCollector::convert_factor.  Returns none exactly
where the source panics: slicing the token at pos + 2 when the last quote
of a based token is its final character is out of bounds in Rust.  Every
other malformed shape falls back to the constant 0. -/
def convertFactor : FactorShape → Option Expr
  | .identPlain id => some (.var id)
  | .identOther => some (.const 0)
  | .numberBased tok =>
    match lastIdxOf quoteChar tok.data with
    | some pos =>
      if pos + 2 > tok.length then none
      else
        match fromStrRadix (tok.data.drop (pos + 2))
            (basedRadix (tok.data[pos + 1]?)) with
        | some v => some (.const v)
        | none => some (.const 0)
    | none => some (.const 0)
  | .numberBaseLess tok =>
    match fromStrRadix tok.data 10 with
    | some v => some (.const v)
    | none => some (.const 0)
  | .numberOtherIntegral => some (.const 0)
  | .numberReal => some (.const 0)
  | .factorOther => some (.const 0)

/-- Decides whether convert_factor panics on this shape: only a based
token whose last quote character is its final character does. -/
def shapePanics : FactorShape → Bool
  | .numberBased tok =>
    match lastIdxOf quoteChar tok.data with
    | some pos => pos + 2 > tok.length
    | none => false
  | _ => false

/-! ### Assignment IR and the evaluation engine (model.rs, struct Model) -/

/-- Embedding of struct Assignment: target signal name and expression. -/
structure Assignment where
  target : String
  expression : Expr
deriving DecidableEq

/-- Embedding of struct SequentialBlock: the reset branch and the clock
branch of one always_ff process. -/
structure SequentialBlock where
  reset_assignments : List Assignment
  clock_assignments : List Assignment
deriving DecidableEq

/-- Embedding of struct Model.  The unused bookkeeping fields of the
source (module name, clock and reset name lists) play no part in any
operation and are omitted. -/
structure Model where
  inputs : List (String × Nat)
  outputs : List (String × Nat)
  internals : List (String × Nat)
  combinational : List Assignment
  sequential : List SequentialBlock
  is_reset : Bool
deriving DecidableEq

/-- Embedding of Model::get_all_variables: build one map holding the
inputs, then the outputs, then the internal signals, later insertions
overwriting earlier ones. -/
def Model.get_all_variables (m : Model) : List (String × Nat) :=
  let env := m.inputs.foldl (fun acc p => ainsert acc p.1 p.2) []
  let env := m.outputs.foldl (fun acc p => ainsert acc p.1 p.2) env
  m.internals.foldl (fun acc p => ainsert acc p.1 p.2) env

/-- One assignment of the evaluation loops of the source: evaluate the
expression against the current variables and write the result to the
target when the target is a known output, otherwise to the target when it
is a known internal signal, otherwise drop the write. -/
def Model.applyAssignment (m : Model) (a : Assignment) : Model :=
  let value := a.expression.eval m.get_all_variables
  if acontains m.outputs a.target then
    { m with outputs := ainsert m.outputs a.target value }
  else if acontains m.internals a.target then
    { m with internals := ainsert m.internals a.target value }
  else m

/-- Apply a list of assignments in order, re-reading the variables before
each one, exactly as the loops of the source do. -/
def Model.applyList (m : Model) (l : List Assignment) : Model :=
  l.foldl Model.applyAssignment m

/-- Embedding of Model::evaluate_combinational: one linear pass over the
combinational assignments in declared order. -/
def Model.evaluate_combinational (m : Model) : Model :=
  m.applyList m.combinational

/-- Embedding of Model::evaluate_sequential_reset: apply the reset branch
of every sequential block, in block then assignment order. -/
def Model.evaluate_sequential_reset (m : Model) : Model :=
  m.sequential.foldl (fun acc b => acc.applyList b.reset_assignments) m

/-- Embedding of Model::evaluate_sequential_clock: apply the clock branch
of every sequential block, in block then assignment order. -/
def Model.evaluate_sequential_clock (m : Model) : Model :=
  m.sequential.foldl (fun acc b => acc.applyList b.clock_assignments) m

/-- Embedding of Model::input (set_input): when the port is a known
input, overwrite its value and run a combinational pass; otherwise do
nothing at all. -/
def Model.input (m : Model) (port : String) (value : Nat) : Model :=
  if acontains m.inputs port then
    { m with inputs := ainsert m.inputs port value }.evaluate_combinational
  else m

/-- Embedding of Model::get (get_output): read-only lookup among the
outputs. -/
def Model.get (m : Model) (port : String) : Option Nat :=
  alookup m.outputs port

/-- Embedding of Model::clock (clock_edge): outside reset, apply every
clock branch and then run a combinational pass; a no-op during reset. -/
def Model.clock (m : Model) : Model :=
  if m.is_reset then m
  else m.evaluate_sequential_clock.evaluate_combinational

/-- Embedding of Model::reset: raise the reset flag, apply every reset
branch, drop the flag, then run a combinational pass. -/
def Model.reset (m : Model) : Model :=
  let m1 : Model := { m with is_reset := true }
  let m2 := m1.evaluate_sequential_reset
  let m3 : Model := { m2 with is_reset := false }
  m3.evaluate_combinational

/-- The concatenation of all reset branches in block order, used to state
the reset property: evaluate_sequential_reset applies exactly this list. -/
def Model.resetAssignments (m : Model) : List Assignment :=
  (m.sequential.map SequentialBlock.reset_assignments).flatten

/-- Port direction as Model::new distinguishes it: Direction::Input,
Direction::Output, and every other direction which the match ignores. -/
inductive Direction where
  | input
  | output
  | other
deriving DecidableEq

/-- One port of the module under simulation as the validated front end
describes it: a name and a direction. -/
structure Port where
  name : String
  dir : Direction
deriving DecidableEq

/-- Embedding of the construction loop of Model::new: classify each port,
an input taking its initial value from the init map with default 0, an
output starting at 0, the internals map left empty; then, with the
collected combinational assignments and sequential blocks, run one
combinational pass so that a fresh model already reflects its initial
inputs.  The symbol-table and syntax-tree walk that produces the port
list and the collected IR belongs to the external front end. -/
def Model.new (ports : List Port) (init : List (String × Nat))
    (comb : List Assignment) (seq : List SequentialBlock) : Model :=
  let base : Model :=
    ports.foldl
      (fun m p =>
        match p.dir with
        | .input =>
          { m with inputs := ainsert m.inputs p.name ((alookup init p.name).getD 0) }
        | .output => { m with outputs := ainsert m.outputs p.name 0 }
        | .other => m)
      { inputs := [], outputs := [], internals := [], combinational := comb,
        sequential := seq, is_reset := false }
  base.evaluate_combinational

/-- One call of the public engine interface. -/
inductive Cmd where
  | setInput : String → Nat → Cmd
  | clockEdge : Cmd
  | resetCmd : Cmd
  | getOutput : String → Cmd
deriving DecidableEq

/-- State transition of one call; getOutput reads without mutating. -/
def Model.applyCmd (m : Model) : Cmd → Model
  | .setInput n v => m.input n v
  | .clockEdge => m.clock
  | .resetCmd => m.reset
  | .getOutput _ => m

/-- Run a sequence of calls. -/
def Model.runCmds (m : Model) (cs : List Cmd) : Model :=
  cs.foldl Model.applyCmd m

/-- The sequence of get_output results observed while running a sequence
of calls. -/
def Model.runTrace : Model → List Cmd → List (Option Nat)
  | _, [] => []
  | m, .getOutput n :: cs => m.get n :: m.runTrace cs
  | m, c :: cs => (m.applyCmd c).runTrace cs

/-! ### The scheduler (simulator.rs, struct Simulator) -/

/-- Embedding of struct Simulator.  The hook list only receives
notifications and never feeds back into the state, so it is omitted. -/
structure Simulator where
  model : Model
  clock_intervals : List (String × Nat)
  simulation_time_ns : Nat
  time_to_next_clock_ns : List (String × Nat)
  clock_states : List (String × Bool)
deriving DecidableEq

/-- The minimum scan at the top of Simulator::step: fold over the pending
times starting from u64::MAX and the empty name, keeping the first
strictly smaller value in iteration order. -/
def findMinClock (l : List (String × Nat)) : Nat × String :=
  l.foldl (fun acc p => if p.2 < acc.1 then (p.2, p.1) else acc) (UMAX, "")

/-- Embedding of Simulator::step: find the domain with the minimum
pending time; if none is found return unchanged; else advance the
simulation time by that minimum, subtract it from every pending time,
then, when the selected name is nonempty, toggle its level, call the
model clock on a rising edge, and re-arm the domain with half its
period.  The time accumulation is u64 arithmetic: the sum is reduced
modulo the word size, as a release build wraps it (a debug build aborts
at the wrapping step).  The lookups of clock_states and clock_intervals
index maps whose keys always contain the selected name in any state the
simulator itself builds; the source would panic otherwise and the
embedding supplies the defaults false and 0. -/
def Simulator.step (s : Simulator) : Simulator :=
  let mins := findMinClock s.time_to_next_clock_ns
  if mins.1 = UMAX then s
  else
    let s1 : Simulator :=
      { s with
        simulation_time_ns := (s.simulation_time_ns + mins.1) % W,
        time_to_next_clock_ns :=
          s.time_to_next_clock_ns.map (fun p => (p.1, p.2 - mins.1)) }
    if mins.2 = "" then s1
    else
      let cur := (alookup s1.clock_states mins.2).getD false
      let newState := !cur
      let s2 : Simulator :=
        { s1 with clock_states := ainsert s1.clock_states mins.2 newState }
      let s3 : Simulator :=
        if newState then { s2 with model := s2.model.clock } else s2
      let interval := (alookup s3.clock_intervals mins.2).getD 0
      { s3 with
        time_to_next_clock_ns :=
          ainsert s3.time_to_next_clock_ns mins.2 (interval / 2) }

/-- Whether the next step call will process a rising edge, that is,
invoke the model clock: a domain is selected, its name is nonempty and
its level is currently low. -/
def Simulator.stepRising (s : Simulator) : Bool :=
  let mins := findMinClock s.time_to_next_clock_ns
  if mins.1 = UMAX then false
  else if mins.2 = "" then false
  else !((alookup s.clock_states mins.2).getD false)

/-- The while loop of Simulator::run, made total with explicit fuel: as
long as the simulation time is below the end time, step.  The source has
no fuel; a run of the source terminates exactly when some fuel makes this
function reach the end time.  The end time of the source is the u64 sum
of the current time and the duration; every run stated below starts at
time 0 with a duration below the word size, where that sum is exact. -/
def Simulator.runAux : Nat → Nat → Simulator → Simulator
  | 0, _, s => s
  | fuel + 1, endT, s =>
    if s.simulation_time_ns < endT then Simulator.runAux fuel endT s.step
    else s

/-- Number of rising edges processed, that is, of invocations of the
model clock, along the same loop as runAux. -/
def Simulator.runEdges : Nat → Nat → Simulator → Nat
  | 0, _, _ => 0
  | fuel + 1, endT, s =>
    if s.simulation_time_ns < endT then
      (if s.stepRising then 1 else 0) + Simulator.runEdges fuel endT s.step
    else 0

/-- Embedding of Simulator::new: pending times start at half the period
and every level starts low. -/
def Simulator.new (model : Model) (clocks : List (String × Nat)) : Simulator :=
  { model := model,
    clock_intervals := clocks,
    simulation_time_ns := 0,
    time_to_next_clock_ns := clocks.map (fun p => (p.1, p.2 / 2)),
    clock_states := clocks.map (fun p => (p.1, false)) }

/-- Embedding of Simulator::reset: zero the simulation time, set every
level low and every pending time to half the period, and reset the
model. -/
def Simulator.reset (s : Simulator) : Simulator :=
  let s1 : Simulator := { s with simulation_time_ns := 0 }
  let s2 : Simulator :=
    { s1 with
      clock_states :=
        s1.clock_intervals.foldl (fun acc p => ainsert acc p.1 false) s1.clock_states,
      time_to_next_clock_ns :=
        s1.clock_intervals.foldl (fun acc p => ainsert acc p.1 (p.2 / 2))
          s1.time_to_next_clock_ns }
  { s2 with model := s2.model.reset }

/-- The edge-count formula asserted by claim C1 and the specification,
transcribed with the integer arithmetic of the source: floor of
max(0, D - P/2) over P, plus one when D is at least P/2. -/
def claimedEdgeCount (P D : Nat) : Nat :=
  (D - P / 2) / P + (if P / 2 ≤ D then 1 else 0)

/-- The canonical state of a single-domain simulator after k steps from a
reset: time k times the half period, the single pending time re-armed at
the half period, the level high exactly after an odd number of steps. -/
def skSim (m : Model) (P k : Nat) : Simulator :=
  { model := m,
    clock_intervals := [("clk", P)],
    simulation_time_ns := k * (P / 2),
    time_to_next_clock_ns := [("clk", P / 2)],
    clock_states := [("clk", k % 2 == 1)] }

/-- Number of pending times currently equal to zero. -/
def zeroCount (s : Simulator) : Nat :=
  s.time_to_next_clock_ns.countP (fun p => p.2 == 0)

/-- Termination potential of the run loop toward an end time. -/
def simPotential (endT : Nat) (s : Simulator) : Nat :=
  (endT - s.simulation_time_ns) * (s.time_to_next_clock_ns.length + 1)
    + zeroCount s

/-- Well-formedness of the scheduler state that the amended claim C7
assumes: at least one clock domain; pairwise distinct domain names, as
HashMap keys are; every domain name nonempty with a period of at least 2
and below 2 to the 64, so that the half period is at least 1 and below
2 to the 63 (every u64 period has its half below 2 to the 63), and every
pending time is below 2 to the 63 as well; in particular the u64::MAX
sentinel of the minimum scan is never a real pending time. -/
def SimInv (s : Simulator) : Prop :=
  s.time_to_next_clock_ns ≠ [] ∧
  (keysOf s.time_to_next_clock_ns).Nodup ∧
  (∀ k ∈ keysOf s.time_to_next_clock_ns,
    k ≠ "" ∧ 1 ≤ ((alookup s.clock_intervals k).getD 0) / 2 ∧
      ((alookup s.clock_intervals k).getD 0) / 2 < 2 ^ 63) ∧
  (∀ p ∈ s.time_to_next_clock_ns, p.2 < 2 ^ 63)

instance (s : Simulator) : Decidable (SimInv s) := by
  unfold SimInv; infer_instance

/-! ### Concrete instances used by witnesses and counterexamples -/

/-- A model with no ports and no logic. -/
def trivModel : Model :=
  { inputs := [], outputs := [], internals := [], combinational := [],
    sequential := [], is_reset := false }

/-- Counterexample model for claim C3: input a, outputs b and c, with the
forward-referencing combinational list b gets c, c gets a.  Built through
Model.new, so it is a reachable engine state. -/
def mC3 : Model :=
  Model.new
    [⟨"a", .input⟩, ⟨"b", .output⟩, ⟨"c", .output⟩]
    [("a", 1)]
    [⟨"b", .var "c"⟩, ⟨"c", .var "a"⟩]
    []

/-- Witness model for the amended claim C3: one input, one output, one
combinational assignment, in a state stable under the pass. -/
def mC3w : Model :=
  { inputs := [("a", 2)], outputs := [("c", 3)], internals := [],
    combinational := [⟨"c", .add (.var "a") (.const 1)⟩], sequential := [],
    is_reset := false }

/-- Counterexample model for claim C6: input b initialized to 5, output
a, one sequential block whose reset branch assigns the value of b to a. -/
def mC6 : Model :=
  Model.new
    [⟨"b", .input⟩, ⟨"a", .output⟩]
    [("b", 5)]
    []
    [⟨[⟨"a", .var "b"⟩], []⟩]

/-- Witness model for the amended claim C6: a constant reset assignment
to a known output that no combinational assignment touches. -/
def mC6w : Model :=
  { inputs := [], outputs := [("a", 7)], internals := [],
    combinational := [], sequential := [⟨[⟨"a", .const 3⟩], []⟩],
    is_reset := false }

/-- Witness model for claims C8 and C2: one input, one output, one
combinational assignment copying the input. -/
def mC8w : Model :=
  { inputs := [("a", 1)], outputs := [("y", 0)], internals := [],
    combinational := [⟨"y", .var "a"⟩], sequential := [],
    is_reset := false }

/-- Single-domain simulator at period 1000 after a reset, as in claim C1. -/
def simC1 : Simulator :=
  (Simulator.new trivModel [("clk", 1000)]).reset

/-- Simulator with one domain of period 1: its half period is 0, so every
step advances time by 0, used to refute the progress part of claim C7. -/
def simC7 : Simulator :=
  (Simulator.new trivModel [("c", 1)]).reset

/-- Two-domain simulator used as the witness of the amended claim C7. -/
def simC7w : Simulator :=
  (Simulator.new trivModel [("a", 4), ("b", 6)]).reset

/-! ## Lemmas about the association-list embedding -/

theorem alookup_append {α : Type} (l1 l2 : List (String × α)) (k : String) :
    alookup (l1 ++ l2) k =
      match alookup l1 k with
      | some v => some v
      | none => alookup l2 k := by
  induction l1 with
  | nil => simp [alookup]
  | cons p rest ih =>
    by_cases h : p.1 = k
    · simp [alookup, h]
    · simp [alookup, h, ih]

theorem alookup_map_replace_ne {α : Type} (l : List (String × α))
    (k k' : String) (v : α) (hne : k' ≠ k) :
    alookup (l.map (fun p => if p.1 = k then (k, v) else p)) k' = alookup l k' := by
  induction l with
  | nil => simp [alookup]
  | cons p rest ih =>
    by_cases h : p.1 = k
    · have hk : ¬ (k = k') := fun hkk => hne hkk.symm
      simp [alookup, h, hk, ih]
    · simp [alookup, h, ih]

theorem alookup_map_replace_self {α : Type} (l : List (String × α))
    (k : String) (v : α) (hc : acontains l k = true) :
    alookup (l.map (fun p => if p.1 = k then (k, v) else p)) k = some v := by
  induction l with
  | nil => simp [acontains, alookup] at hc
  | cons p rest ih =>
    by_cases h : p.1 = k
    · simp [alookup, h]
    · have hc' : acontains rest k = true := by
        simpa [acontains, alookup, h] using hc
      simp [alookup, h, ih hc']

theorem alookup_none_of_not_contains {α : Type} (l : List (String × α))
    (k : String) (hc : ¬ acontains l k = true) : alookup l k = none := by
  unfold acontains at hc
  cases h : alookup l k with
  | none => rfl
  | some v => simp [h] at hc

theorem alookup_ainsert_self {α : Type} (l : List (String × α)) (k : String)
    (v : α) : alookup (ainsert l k v) k = some v := by
  unfold ainsert
  by_cases hc : acontains l k
  · rw [if_pos hc]
    exact alookup_map_replace_self l k v hc
  · rw [if_neg hc, alookup_append, alookup_none_of_not_contains l k hc]
    simp [alookup]

theorem alookup_ainsert_ne {α : Type} (l : List (String × α)) (k k' : String)
    (v : α) (hne : k' ≠ k) : alookup (ainsert l k v) k' = alookup l k' := by
  unfold ainsert
  by_cases hc : acontains l k
  · rw [if_pos hc]
    exact alookup_map_replace_ne l k k' v hne
  · rw [if_neg hc, alookup_append]
    cases h : alookup l k' with
    | none =>
      have hk : ¬ (k = k') := fun hkk => hne hkk.symm
      simp [h, alookup, hk]
    | some w => simp

theorem map_replace_fst {α : Type} (l : List (String × α)) (k : String)
    (v : α) :
    (l.map (fun p => if p.1 = k then (k, v) else p)).map Prod.fst =
      l.map Prod.fst := by
  induction l with
  | nil => simp
  | cons p rest ih =>
    by_cases h : p.1 = k
    · simp [h, ih]
    · simp [h, ih]

theorem keysOf_ainsert_of_contains {α : Type} (l : List (String × α))
    (k : String) (v : α) (hc : acontains l k = true) :
    keysOf (ainsert l k v) = keysOf l := by
  unfold ainsert keysOf
  rw [if_pos hc]
  exact map_replace_fst l k v

theorem acontains_iff_mem {α : Type} (l : List (String × α)) (k : String) :
    acontains l k = true ↔ k ∈ keysOf l := by
  induction l with
  | nil => simp [acontains, alookup, keysOf]
  | cons p rest ih =>
    by_cases h : p.1 = k
    · simp [acontains, alookup, h, keysOf]
    · simp only [acontains, alookup, h, if_false, keysOf, List.map_cons,
        List.mem_cons]
      constructor
      · intro hx
        exact Or.inr (ih.mp hx)
      · intro hx
        rcases hx with hx | hx
        · exact absurd hx.symm h
        · exact ih.mpr hx

theorem acontains_of_keys_eq {α β : Type} (l : List (String × α))
    (l' : List (String × β)) (h : keysOf l = keysOf l') (k : String) :
    acontains l k = acontains l' k := by
  by_cases hc : acontains l k
  · rw [hc, ((acontains_iff_mem l' k).mpr (h ▸ (acontains_iff_mem l k).mp hc))]
  · have hc' : ¬ acontains l' k = true := by
      intro hx
      exact hc ((acontains_iff_mem l k).mpr (h ▸ (acontains_iff_mem l' k).mp hx))
    simp [hc, hc']

theorem mem_of_ainsert {α : Type} (l : List (String × α)) (k : String) (v : α)
    (p : String × α) (hp : p ∈ ainsert l k v) :
    p = (k, v) ∨ p ∈ l := by
  unfold ainsert at hp
  by_cases hc : acontains l k
  · rw [if_pos hc] at hp
    simp only [List.mem_map] at hp
    obtain ⟨q, hq, hqe⟩ := hp
    by_cases h : q.1 = k
    · simp [h] at hqe
      exact Or.inl hqe.symm
    · simp [h] at hqe
      exact Or.inr (hqe ▸ hq)
  · rw [if_neg hc] at hp
    simp only [List.mem_append, List.mem_singleton] at hp
    rcases hp with hp | hp
    · exact Or.inr hp
    · exact Or.inl hp

theorem map_replace_eq_self {α : Type} (l : List (String × α)) (k : String)
    (v : α) (h : ∀ q ∈ l, q.1 ≠ k) :
    l.map (fun p => if p.1 = k then (k, v) else p) = l := by
  induction l with
  | nil => simp
  | cons p rest ih =>
    have hp : p.1 ≠ k := h p (List.mem_cons_self p rest)
    simp only [List.map_cons, if_neg hp]
    rw [ih (fun q hq => h q (List.mem_cons_of_mem p hq))]

theorem ainsert_lookup_self {α : Type} (l : List (String × α)) (k : String)
    (v : α) (hv : alookup l k = some v) (hnd : (keysOf l).Nodup) :
    ainsert l k v = l := by
  have hc : acontains l k = true := by simp [acontains, hv]
  unfold ainsert
  rw [if_pos hc]
  induction l with
  | nil => simp
  | cons p rest ih =>
    simp only [keysOf, List.map_cons, List.nodup_cons] at hnd
    by_cases h : p.1 = k
    · have hpv : p.2 = v := by
        have := hv
        simp only [alookup, h, if_pos rfl] at this
        exact Option.some.inj this
      have hrest : rest.map (fun q => if q.1 = k then (k, v) else q) = rest := by
        apply map_replace_eq_self
        intro q hq hqk
        exact hnd.1 (h ▸ hqk ▸ List.mem_map_of_mem Prod.fst hq)
      have hp : (if p.1 = k then (k, v) else p) = p := by
        cases p with
        | mk a b =>
          simp only at h hpv
          simp [h, hpv]
      simp only [List.map_cons, hp, hrest]
    · have hv' : alookup rest k = some v := by
        simpa [alookup, h] using hv
      have hc' : acontains rest k = true := by simp [acontains, hv']
      simp only [List.map_cons, if_neg h]
      rw [ih hv' hnd.2 hc']

/-! ## Lemmas about the engine operations -/

theorem applyAssignment_inputs (m : Model) (a : Assignment) :
    (m.applyAssignment a).inputs = m.inputs := by
  unfold Model.applyAssignment
  split
  · rfl
  · split <;> rfl

theorem applyAssignment_combinational (m : Model) (a : Assignment) :
    (m.applyAssignment a).combinational = m.combinational := by
  unfold Model.applyAssignment
  split
  · rfl
  · split <;> rfl

theorem applyAssignment_sequential (m : Model) (a : Assignment) :
    (m.applyAssignment a).sequential = m.sequential := by
  unfold Model.applyAssignment
  split
  · rfl
  · split <;> rfl

theorem applyAssignment_is_reset (m : Model) (a : Assignment) :
    (m.applyAssignment a).is_reset = m.is_reset := by
  unfold Model.applyAssignment
  split
  · rfl
  · split <;> rfl

theorem applyAssignment_outputs_keys (m : Model) (a : Assignment) :
    keysOf (m.applyAssignment a).outputs = keysOf m.outputs := by
  unfold Model.applyAssignment
  split
  · exact keysOf_ainsert_of_contains _ _ _ (by assumption)
  · split <;> rfl

theorem applyAssignment_internals_keys (m : Model) (a : Assignment) :
    keysOf (m.applyAssignment a).internals = keysOf m.internals := by
  unfold Model.applyAssignment
  split
  · rfl
  · split
    · exact keysOf_ainsert_of_contains _ _ _ (by assumption)
    · rfl

theorem applyList_inputs (l : List Assignment) (m : Model) :
    (m.applyList l).inputs = m.inputs := by
  induction l generalizing m with
  | nil => rfl
  | cons a rest ih =>
    unfold Model.applyList
    simp only [List.foldl_cons]
    rw [← Model.applyList]
    rw [ih, applyAssignment_inputs]

theorem applyList_combinational (l : List Assignment) (m : Model) :
    (m.applyList l).combinational = m.combinational := by
  induction l generalizing m with
  | nil => rfl
  | cons a rest ih =>
    unfold Model.applyList
    simp only [List.foldl_cons]
    rw [← Model.applyList]
    rw [ih, applyAssignment_combinational]

theorem applyList_sequential (l : List Assignment) (m : Model) :
    (m.applyList l).sequential = m.sequential := by
  induction l generalizing m with
  | nil => rfl
  | cons a rest ih =>
    unfold Model.applyList
    simp only [List.foldl_cons]
    rw [← Model.applyList]
    rw [ih, applyAssignment_sequential]

theorem applyList_is_reset (l : List Assignment) (m : Model) :
    (m.applyList l).is_reset = m.is_reset := by
  induction l generalizing m with
  | nil => rfl
  | cons a rest ih =>
    unfold Model.applyList
    simp only [List.foldl_cons]
    rw [← Model.applyList]
    rw [ih, applyAssignment_is_reset]

theorem applyList_outputs_keys (l : List Assignment) (m : Model) :
    keysOf (m.applyList l).outputs = keysOf m.outputs := by
  induction l generalizing m with
  | nil => rfl
  | cons a rest ih =>
    unfold Model.applyList
    simp only [List.foldl_cons]
    rw [← Model.applyList]
    rw [ih, applyAssignment_outputs_keys]

theorem applyList_internals_keys (l : List Assignment) (m : Model) :
    keysOf (m.applyList l).internals = keysOf m.internals := by
  induction l generalizing m with
  | nil => rfl
  | cons a rest ih =>
    unfold Model.applyList
    simp only [List.foldl_cons]
    rw [← Model.applyList]
    rw [ih, applyAssignment_internals_keys]

theorem seqFoldReset_eq_applyList (blocks : List SequentialBlock) (m : Model) :
    blocks.foldl (fun acc b => acc.applyList b.reset_assignments) m =
      m.applyList ((blocks.map SequentialBlock.reset_assignments).flatten) := by
  induction blocks generalizing m with
  | nil => rfl
  | cons b rest ih =>
    simp only [List.foldl_cons, List.map_cons, List.flatten_cons]
    rw [ih]
    unfold Model.applyList
    rw [List.foldl_append]

theorem seqFoldClock_eq_applyList (blocks : List SequentialBlock) (m : Model) :
    blocks.foldl (fun acc b => acc.applyList b.clock_assignments) m =
      m.applyList ((blocks.map SequentialBlock.clock_assignments).flatten) := by
  induction blocks generalizing m with
  | nil => rfl
  | cons b rest ih =>
    simp only [List.foldl_cons, List.map_cons, List.flatten_cons]
    rw [ih]
    unfold Model.applyList
    rw [List.foldl_append]

theorem evaluate_sequential_reset_eq (m : Model) :
    m.evaluate_sequential_reset = m.applyList m.resetAssignments :=
  seqFoldReset_eq_applyList m.sequential m

/-- Keys of all three signal maps are preserved by every public engine
operation; collected as one statement over the command type. -/
theorem applyCmd_keys (m : Model) (c : Cmd) :
    keysOf (m.applyCmd c).inputs = keysOf m.inputs ∧
    keysOf (m.applyCmd c).outputs = keysOf m.outputs ∧
    keysOf (m.applyCmd c).internals = keysOf m.internals := by
  cases c with
  | setInput n v =>
    simp only [Model.applyCmd]
    unfold Model.input
    by_cases hc : acontains m.inputs n
    · rw [if_pos hc]
      unfold Model.evaluate_combinational
      refine ⟨?_, ?_, ?_⟩
      · rw [applyList_inputs]
        exact keysOf_ainsert_of_contains _ _ _ hc
      · rw [applyList_outputs_keys]
      · rw [applyList_internals_keys]
    · rw [if_neg hc]
      exact ⟨rfl, rfl, rfl⟩
  | clockEdge =>
    simp only [Model.applyCmd]
    unfold Model.clock
    by_cases hr : m.is_reset
    · rw [if_pos hr]
      exact ⟨rfl, rfl, rfl⟩
    · rw [if_neg hr]
      unfold Model.evaluate_combinational Model.evaluate_sequential_clock
      rw [seqFoldClock_eq_applyList]
      refine ⟨?_, ?_, ?_⟩
      · rw [applyList_inputs, applyList_inputs]
      · rw [applyList_outputs_keys, applyList_outputs_keys]
      · rw [applyList_internals_keys, applyList_internals_keys]
  | resetCmd =>
    simp only [Model.applyCmd, Model.reset]
    unfold Model.evaluate_combinational Model.evaluate_sequential_reset
    rw [seqFoldReset_eq_applyList]
    refine ⟨?_, ?_, ?_⟩
    · simp [applyList_inputs]
    · simp [applyList_outputs_keys]
    · simp [applyList_internals_keys]
  | getOutput n => exact ⟨rfl, rfl, rfl⟩

theorem runCmds_keys (cs : List Cmd) (m : Model) :
    keysOf (m.runCmds cs).inputs = keysOf m.inputs ∧
    keysOf (m.runCmds cs).outputs = keysOf m.outputs ∧
    keysOf (m.runCmds cs).internals = keysOf m.internals := by
  induction cs generalizing m with
  | nil => exact ⟨rfl, rfl, rfl⟩
  | cons c rest ih =>
    unfold Model.runCmds
    simp only [List.foldl_cons]
    rw [← Model.runCmds]
    obtain ⟨h1, h2, h3⟩ := ih (m.applyCmd c)
    obtain ⟨g1, g2, g3⟩ := applyCmd_keys m c
    exact ⟨h1.trans g1, h2.trans g2, h3.trans g3⟩

/-! ## Lemmas about empty internals -/

theorem applyAssignment_internals_nil (m : Model) (a : Assignment)
    (h : m.internals = []) : (m.applyAssignment a).internals = [] := by
  unfold Model.applyAssignment
  split
  · exact h
  · rw [h]
    simp [acontains, alookup, h]

theorem applyList_internals_nil (l : List Assignment) (m : Model)
    (h : m.internals = []) : (m.applyList l).internals = [] := by
  induction l generalizing m with
  | nil => exact h
  | cons a rest ih =>
    unfold Model.applyList
    simp only [List.foldl_cons]
    rw [← Model.applyList]
    exact ih _ (applyAssignment_internals_nil m a h)

theorem applyCmd_internals_nil (m : Model) (c : Cmd)
    (h : m.internals = []) : (m.applyCmd c).internals = [] := by
  cases c with
  | setInput n v =>
    simp only [Model.applyCmd]
    unfold Model.input
    by_cases hc : acontains m.inputs n
    · rw [if_pos hc]
      exact applyList_internals_nil _ _ h
    · rw [if_neg hc]
      exact h
  | clockEdge =>
    simp only [Model.applyCmd]
    unfold Model.clock
    by_cases hr : m.is_reset
    · rw [if_pos hr]
      exact h
    · rw [if_neg hr]
      unfold Model.evaluate_combinational Model.evaluate_sequential_clock
      rw [seqFoldClock_eq_applyList]
      exact applyList_internals_nil _ _ (applyList_internals_nil _ _ h)
  | resetCmd =>
    simp only [Model.applyCmd, Model.reset]
    unfold Model.evaluate_combinational Model.evaluate_sequential_reset
    rw [seqFoldReset_eq_applyList]
    exact applyList_internals_nil _ _ (applyList_internals_nil _ _ h)
  | getOutput n => exact h

theorem runCmds_internals_nil (cs : List Cmd) (m : Model)
    (h : m.internals = []) : (m.runCmds cs).internals = [] := by
  induction cs generalizing m with
  | nil => exact h
  | cons c rest ih =>
    unfold Model.runCmds
    simp only [List.foldl_cons]
    rw [← Model.runCmds]
    exact ih _ (applyCmd_internals_nil m c h)

/-- The construction fold of Model.new never touches the internals map. -/
theorem newFold_internals (ports : List Port) (init : List (String × Nat))
    (m : Model) :
    (ports.foldl
      (fun m p =>
        match p.dir with
        | .input =>
          { m with inputs := ainsert m.inputs p.name ((alookup init p.name).getD 0) }
        | .output => { m with outputs := ainsert m.outputs p.name 0 }
        | .other => m) m).internals = m.internals := by
  induction ports generalizing m with
  | nil => rfl
  | cons p rest ih =>
    simp only [List.foldl_cons]
    cases hd : p.dir <;> simp only [hd] <;> rw [ih]

/-! ## Lookup preservation through evaluation passes -/

theorem applyAssignment_outputs_lookup_ne (m : Model) (a : Assignment)
    (t : String) (h : a.target ≠ t) :
    alookup (m.applyAssignment a).outputs t = alookup m.outputs t := by
  unfold Model.applyAssignment
  split
  · exact alookup_ainsert_ne _ _ _ _ (fun ht => h ht.symm)
  · split <;> rfl

theorem applyList_outputs_lookup_ne (l : List Assignment) (m : Model)
    (t : String) (h : ∀ a ∈ l, a.target ≠ t) :
    alookup (m.applyList l).outputs t = alookup m.outputs t := by
  induction l generalizing m with
  | nil => rfl
  | cons a rest ih =>
    unfold Model.applyList
    simp only [List.foldl_cons]
    rw [← Model.applyList]
    rw [ih _ (fun b hb => h b (List.mem_cons_of_mem a hb)),
      applyAssignment_outputs_lookup_ne m a t (h a (List.mem_cons_self a rest))]

theorem applyAssignment_const_lookup (m : Model) (t : String) (c : Nat)
    (hc : acontains m.outputs t = true) :
    alookup ((m.applyAssignment ⟨t, Expr.const c⟩).outputs) t = some c := by
  unfold Model.applyAssignment
  simp only [Expr.eval]
  rw [if_pos hc]
  exact alookup_ainsert_self _ _ _

/-! ## Membership characterization of the construction fold -/

theorem keysOf_ainsert_mem {α : Type} (l : List (String × α)) (k k' : String)
    (v : α) : k' ∈ keysOf (ainsert l k v) ↔ k' ∈ keysOf l ∨ k' = k := by
  by_cases hc : acontains l k
  · rw [keysOf_ainsert_of_contains l k v hc]
    constructor
    · exact Or.inl
    · intro hx
      rcases hx with hx | hx
      · exact hx
      · rw [hx]
        exact (acontains_iff_mem l k).mp hc
  · unfold ainsert
    rw [if_neg hc]
    simp [keysOf]

/-- Membership in the input keys produced by the construction fold of
Model.new. -/
theorem newFold_inputs_mem (ports : List Port) (init : List (String × Nat))
    (m : Model) (k : String) :
    (k ∈ keysOf (ports.foldl
      (fun m p =>
        match p.dir with
        | .input =>
          { m with inputs := ainsert m.inputs p.name ((alookup init p.name).getD 0) }
        | .output => { m with outputs := ainsert m.outputs p.name 0 }
        | .other => m) m).inputs) ↔
      (k ∈ keysOf m.inputs ∨ ∃ p ∈ ports, p.name = k ∧ p.dir = .input) := by
  induction ports generalizing m with
  | nil => simp
  | cons p rest ih =>
    simp only [List.foldl_cons]
    cases hd : p.dir with
    | input =>
      simp only [hd]
      rw [ih]
      rw [keysOf_ainsert_mem]
      constructor
      · intro hx
        rcases hx with (hx | hx) | hx
        · exact Or.inl hx
        · exact Or.inr ⟨p, List.mem_cons_self p rest, hx.symm, hd⟩
        · obtain ⟨q, hq, hqk, hqd⟩ := hx
          exact Or.inr ⟨q, List.mem_cons_of_mem p hq, hqk, hqd⟩
      · intro hx
        rcases hx with hx | hx
        · exact Or.inl (Or.inl hx)
        · obtain ⟨q, hq, hqk, hqd⟩ := hx
          rcases List.mem_cons.mp hq with hq | hq
          · exact Or.inl (Or.inr (hq ▸ hqk).symm)
          · exact Or.inr ⟨q, hq, hqk, hqd⟩
    | output =>
      simp only [hd]
      rw [ih]
      constructor
      · intro hx
        rcases hx with hx | hx
        · exact Or.inl hx
        · obtain ⟨q, hq, hqk, hqd⟩ := hx
          exact Or.inr ⟨q, List.mem_cons_of_mem p hq, hqk, hqd⟩
      · intro hx
        rcases hx with hx | hx
        · exact Or.inl hx
        · obtain ⟨q, hq, hqk, hqd⟩ := hx
          rcases List.mem_cons.mp hq with hq | hq
          · rw [hq] at hqd
            rw [hd] at hqd
            cases hqd
          · exact Or.inr ⟨q, hq, hqk, hqd⟩
    | other =>
      simp only [hd]
      rw [ih]
      constructor
      · intro hx
        rcases hx with hx | hx
        · exact Or.inl hx
        · obtain ⟨q, hq, hqk, hqd⟩ := hx
          exact Or.inr ⟨q, List.mem_cons_of_mem p hq, hqk, hqd⟩
      · intro hx
        rcases hx with hx | hx
        · exact Or.inl hx
        · obtain ⟨q, hq, hqk, hqd⟩ := hx
          rcases List.mem_cons.mp hq with hq | hq
          · rw [hq] at hqd
            rw [hd] at hqd
            cases hqd
          · exact Or.inr ⟨q, hq, hqk, hqd⟩

/-- Membership in the output keys produced by the construction fold of
Model.new. -/
theorem newFold_outputs_mem (ports : List Port) (init : List (String × Nat))
    (m : Model) (k : String) :
    (k ∈ keysOf (ports.foldl
      (fun m p =>
        match p.dir with
        | .input =>
          { m with inputs := ainsert m.inputs p.name ((alookup init p.name).getD 0) }
        | .output => { m with outputs := ainsert m.outputs p.name 0 }
        | .other => m) m).outputs) ↔
      (k ∈ keysOf m.outputs ∨ ∃ p ∈ ports, p.name = k ∧ p.dir = .output) := by
  induction ports generalizing m with
  | nil => simp
  | cons p rest ih =>
    simp only [List.foldl_cons]
    cases hd : p.dir with
    | output =>
      simp only [hd]
      rw [ih]
      rw [keysOf_ainsert_mem]
      constructor
      · intro hx
        rcases hx with (hx | hx) | hx
        · exact Or.inl hx
        · exact Or.inr ⟨p, List.mem_cons_self p rest, hx.symm, hd⟩
        · obtain ⟨q, hq, hqk, hqd⟩ := hx
          exact Or.inr ⟨q, List.mem_cons_of_mem p hq, hqk, hqd⟩
      · intro hx
        rcases hx with hx | hx
        · exact Or.inl (Or.inl hx)
        · obtain ⟨q, hq, hqk, hqd⟩ := hx
          rcases List.mem_cons.mp hq with hq | hq
          · exact Or.inl (Or.inr (hq ▸ hqk).symm)
          · exact Or.inr ⟨q, hq, hqk, hqd⟩
    | input =>
      simp only [hd]
      rw [ih]
      constructor
      · intro hx
        rcases hx with hx | hx
        · exact Or.inl hx
        · obtain ⟨q, hq, hqk, hqd⟩ := hx
          exact Or.inr ⟨q, List.mem_cons_of_mem p hq, hqk, hqd⟩
      · intro hx
        rcases hx with hx | hx
        · exact Or.inl hx
        · obtain ⟨q, hq, hqk, hqd⟩ := hx
          rcases List.mem_cons.mp hq with hq | hq
          · rw [hq] at hqd
            rw [hd] at hqd
            cases hqd
          · exact Or.inr ⟨q, hq, hqk, hqd⟩
    | other =>
      simp only [hd]
      rw [ih]
      constructor
      · intro hx
        rcases hx with hx | hx
        · exact Or.inl hx
        · obtain ⟨q, hq, hqk, hqd⟩ := hx
          exact Or.inr ⟨q, List.mem_cons_of_mem p hq, hqk, hqd⟩
      · intro hx
        rcases hx with hx | hx
        · exact Or.inl hx
        · obtain ⟨q, hq, hqk, hqd⟩ := hx
          rcases List.mem_cons.mp hq with hq | hq
          · rw [hq] at hqd
            rw [hd] at hqd
            cases hqd
          · exact Or.inr ⟨q, hq, hqk, hqd⟩

/-- The three key lists of a freshly constructed model: the inputs hold
exactly the input-direction port names, the outputs exactly the
output-direction port names, and the internals are empty. -/
theorem new_keys_mem (ports : List Port) (init : List (String × Nat))
    (comb : List Assignment) (seq : List SequentialBlock) (k : String) :
    (k ∈ keysOf (Model.new ports init comb seq).inputs ↔
      ∃ p ∈ ports, p.name = k ∧ p.dir = .input) ∧
    (k ∈ keysOf (Model.new ports init comb seq).outputs ↔
      ∃ p ∈ ports, p.name = k ∧ p.dir = .output) ∧
    (Model.new ports init comb seq).internals = [] := by
  unfold Model.new
  unfold Model.evaluate_combinational
  refine ⟨?_, ?_, ?_⟩
  · rw [applyList_inputs]
    have := newFold_inputs_mem ports init
      { inputs := [], outputs := [], internals := [], combinational := comb,
        sequential := seq, is_reset := false } k
    rw [this]
    simp [keysOf]
  · rw [applyList_outputs_keys]
    have := newFold_outputs_mem ports init
      { inputs := [], outputs := [], internals := [], combinational := comb,
        sequential := seq, is_reset := false } k
    rw [this]
    simp [keysOf]
  · apply applyList_internals_nil
    rw [newFold_internals]

/-! ## Claim theorems -/

/-- Claim C10: in every reachable engine state the internals map is
empty.  Model::new creates the internals map with HashMap::new and no
code path ever inserts into an empty internals map, because every write
is guarded by contains_key; consequently an assignment whose target is
not a known output is dropped entirely and every performed write lands in
the outputs map.  The theorem states the invariant for every state
reachable by any command sequence from any construction, together with
the dropped-write fact. -/
theorem C10_internals_empty (ports : List Port) (init : List (String × Nat))
    (comb : List Assignment) (seq : List SequentialBlock) (cs : List Cmd) :
    ((Model.new ports init comb seq).runCmds cs).internals = [] ∧
    (∀ (m : Model) (a : Assignment), m.internals = [] →
      acontains m.outputs a.target = false → m.applyAssignment a = m) := by
  constructor
  · exact runCmds_internals_nil cs _ (new_keys_mem ports init comb seq "").2.2
  · intro m a h hout
    unfold Model.applyAssignment
    rw [hout, h]
    simp [acontains, alookup]

/-- Closed instance of claim C10: internals stay empty along a concrete
run, and a write to a non-output target is dropped. -/
theorem C10_witness :
    ((Model.new [⟨"a", .input⟩] [] [] []).runCmds
      [.resetCmd, .setInput "a" 3, .clockEdge]).internals = [] ∧
    trivModel.applyAssignment ⟨"x", .const 1⟩ = trivModel := by
  refine ⟨(C10_internals_empty [⟨"a", .input⟩] [] [] []
    [.resetCmd, .setInput "a" 3, .clockEdge]).1, ?_⟩
  exact (C10_internals_empty [] [] [] [] []).2 trivModel ⟨"x", .const 1⟩ rfl
    (by decide)

/-- Claim C9: in every reachable engine state the key sets of the three
signal maps are exactly the key sets fixed at construction and are
pairwise disjoint; no operation adds, removes or moves a signal name.
The Nodup hypothesis renders the front-end guarantee that a validated
module has pairwise distinct port names. -/
theorem C9_keys_fixed (ports : List Port) (init : List (String × Nat))
    (comb : List Assignment) (seq : List SequentialBlock) (cs : List Cmd)
    (hnd : (ports.map Port.name).Nodup) :
    keysOf ((Model.new ports init comb seq).runCmds cs).inputs =
      keysOf (Model.new ports init comb seq).inputs ∧
    keysOf ((Model.new ports init comb seq).runCmds cs).outputs =
      keysOf (Model.new ports init comb seq).outputs ∧
    keysOf ((Model.new ports init comb seq).runCmds cs).internals =
      keysOf (Model.new ports init comb seq).internals ∧
    (∀ k ∈ keysOf ((Model.new ports init comb seq).runCmds cs).inputs,
      k ∉ keysOf ((Model.new ports init comb seq).runCmds cs).outputs) ∧
    (∀ k ∈ keysOf ((Model.new ports init comb seq).runCmds cs).inputs,
      k ∉ keysOf ((Model.new ports init comb seq).runCmds cs).internals) ∧
    (∀ k ∈ keysOf ((Model.new ports init comb seq).runCmds cs).outputs,
      k ∉ keysOf ((Model.new ports init comb seq).runCmds cs).internals) := by
  obtain ⟨h1, h2, h3⟩ := runCmds_keys cs (Model.new ports init comb seq)
  have hint : (Model.new ports init comb seq).internals = [] :=
    (new_keys_mem ports init comb seq "").2.2
  refine ⟨h1, h2, h3, ?_, ?_, ?_⟩
  · intro k hk hk2
    rw [h1] at hk
    rw [h2] at hk2
    obtain ⟨p1, hp1, hp1k, hp1d⟩ := ((new_keys_mem ports init comb seq k).1).mp hk
    obtain ⟨p2, hp2, hp2k, hp2d⟩ := ((new_keys_mem ports init comb seq k).2.1).mp hk2
    have : p1 = p2 :=
      List.inj_on_of_nodup_map hnd hp1 hp2 (hp1k.trans hp2k.symm)
    rw [this, hp2d] at hp1d
    cases hp1d
  · intro k hk hk2
    rw [h3, hint] at hk2
    simp [keysOf] at hk2
  · intro k hk hk2
    rw [h3, hint] at hk2
    simp [keysOf] at hk2

/-- Closed instance of claim C9 on a concrete engine and run. -/
theorem C9_witness :
    keysOf ((Model.new [⟨"a", .input⟩, ⟨"y", .output⟩] [("a", 1)]
        [⟨"y", .var "a"⟩] []).runCmds
        [.setInput "a" 2, .resetCmd, .clockEdge]).inputs =
      keysOf (Model.new [⟨"a", .input⟩, ⟨"y", .output⟩] [("a", 1)]
        [⟨"y", .var "a"⟩] []).inputs ∧
    keysOf ((Model.new [⟨"a", .input⟩, ⟨"y", .output⟩] [("a", 1)]
        [⟨"y", .var "a"⟩] []).runCmds
        [.setInput "a" 2, .resetCmd, .clockEdge]).outputs =
      keysOf (Model.new [⟨"a", .input⟩, ⟨"y", .output⟩] [("a", 1)]
        [⟨"y", .var "a"⟩] []).outputs ∧
    keysOf ((Model.new [⟨"a", .input⟩, ⟨"y", .output⟩] [("a", 1)]
        [⟨"y", .var "a"⟩] []).runCmds
        [.setInput "a" 2, .resetCmd, .clockEdge]).internals =
      keysOf (Model.new [⟨"a", .input⟩, ⟨"y", .output⟩] [("a", 1)]
        [⟨"y", .var "a"⟩] []).internals ∧
    (∀ k ∈ keysOf ((Model.new [⟨"a", .input⟩, ⟨"y", .output⟩] [("a", 1)]
        [⟨"y", .var "a"⟩] []).runCmds
        [.setInput "a" 2, .resetCmd, .clockEdge]).inputs,
      k ∉ keysOf ((Model.new [⟨"a", .input⟩, ⟨"y", .output⟩] [("a", 1)]
        [⟨"y", .var "a"⟩] []).runCmds
        [.setInput "a" 2, .resetCmd, .clockEdge]).outputs) ∧
    (∀ k ∈ keysOf ((Model.new [⟨"a", .input⟩, ⟨"y", .output⟩] [("a", 1)]
        [⟨"y", .var "a"⟩] []).runCmds
        [.setInput "a" 2, .resetCmd, .clockEdge]).inputs,
      k ∉ keysOf ((Model.new [⟨"a", .input⟩, ⟨"y", .output⟩] [("a", 1)]
        [⟨"y", .var "a"⟩] []).runCmds
        [.setInput "a" 2, .resetCmd, .clockEdge]).internals) ∧
    (∀ k ∈ keysOf ((Model.new [⟨"a", .input⟩, ⟨"y", .output⟩] [("a", 1)]
        [⟨"y", .var "a"⟩] []).runCmds
        [.setInput "a" 2, .resetCmd, .clockEdge]).outputs,
      k ∉ keysOf ((Model.new [⟨"a", .input⟩, ⟨"y", .output⟩] [("a", 1)]
        [⟨"y", .var "a"⟩] []).runCmds
        [.setInput "a" 2, .resetCmd, .clockEdge]).internals) :=
  C9_keys_fixed [⟨"a", .input⟩, ⟨"y", .output⟩] [("a", 1)]
    [⟨"y", .var "a"⟩] [] [.setInput "a" 2, .resetCmd, .clockEdge] (by decide)

/-- Claim C8: set_input updates the input when the name is known and then
runs a combinational pass; on an unknown name the whole call is a silent
no-op that changes nothing. -/
theorem C8_set_input (m : Model) (n : String) (v : Nat) :
    (acontains m.inputs n = true →
      m.input n v =
        ({ m with inputs := ainsert m.inputs n v } : Model).evaluate_combinational ∧
      alookup (m.input n v).inputs n = some v) ∧
    (acontains m.inputs n = false → m.input n v = m) := by
  constructor
  · intro hc
    unfold Model.input
    rw [if_pos hc]
    refine ⟨rfl, ?_⟩
    unfold Model.evaluate_combinational
    rw [applyList_inputs]
    exact alookup_ainsert_self m.inputs n v
  · intro hc
    unfold Model.input
    rw [hc]
    simp

/-- Closed instance of claim C8: a known input is updated, an unknown
name is ignored. -/
theorem C8_witness :
    alookup ((mC8w.input "a" 7).inputs) "a" = some 7 ∧
    mC8w.input "zz" 7 = mC8w := by
  constructor
  · exact ((C8_set_input mC8w "a" 7).1 (by decide)).2
  · exact (C8_set_input mC8w "zz" 7).2 (by decide)

/-- Claim C2: two-run determinism of the evaluation engine.  The engine
state is a pure value, an operation sequence is a pure function of it,
and the observed get_output trace of two engines that agree on the key
sets, the compiled assignment lists, the initial values and the reset
flag is identical.  All sources of apparent nondeterminism in the Rust
code, namely HashMap iteration orders, are absorbed by the map semantics:
within one map keys are unique and across maps the later category always
overwrites, so the evaluation environment and therefore every result is
a function of the state alone. -/
theorem C2_determinism (m1 m2 : Model) (cs : List Cmd)
    (hi : m1.inputs = m2.inputs) (ho : m1.outputs = m2.outputs)
    (hx : m1.internals = m2.internals)
    (hc : m1.combinational = m2.combinational)
    (hs : m1.sequential = m2.sequential) (hr : m1.is_reset = m2.is_reset) :
    m1.runTrace cs = m2.runTrace cs := by
  have : m1 = m2 := by
    cases m1
    cases m2
    simp only at hi ho hx hc hs hr
    rw [hi, ho, hx, hc, hs, hr]
  rw [this]

/-- Closed instance of claim C2: the same engine run twice over the same
call sequence produces the same trace. -/
theorem C2_witness :
    mC8w.runTrace [.getOutput "y", .setInput "a" 5, .getOutput "y",
        .resetCmd, .clockEdge, .getOutput "y"] =
      mC8w.runTrace [.getOutput "y", .setInput "a" 5, .getOutput "y",
        .resetCmd, .clockEdge, .getOutput "y"] :=
  C2_determinism mC8w mC8w _ rfl rfl rfl rfl rfl rfl

/-- Claim C3 fails on the code: in the reachable engine mC3, built by
Model.new with the combinational list b gets c, c gets a, calling
set_input with the value the input a already holds changes the output b
from 0 to 1, because the single linear pass feeds the one-step-stale
value of c forward.  The pass is not idempotent on such states. -/
theorem C3_counterexample :
    alookup mC3.inputs "a" = some 1 ∧
    mC3.get "b" = some 0 ∧
    (mC3.input "a" 1).get "b" = some 1 := by decide

/-- Claim C3 amended: when the engine state is a fixed point of the
combinational pass, calling set_input with the value the input already
holds leaves the entire state, and hence every get_output result,
unchanged.  The Nodup hypothesis renders the uniqueness of HashMap
keys. -/
theorem C3_amended (m : Model) (n : String) (v : Nat)
    (hnd : (keysOf m.inputs).Nodup)
    (hstable : m.evaluate_combinational = m)
    (hv : alookup m.inputs n = some v) :
    m.input n v = m := by
  have hc : acontains m.inputs n = true := by simp [acontains, hv]
  unfold Model.input
  rw [if_pos hc]
  rw [ainsert_lookup_self m.inputs n v hv hnd]
  exact hstable

/-- Closed instance of the amended claim C3 on a pass-stable engine. -/
theorem C3_witness : mC3w.input "a" 2 = mC3w :=
  C3_amended mC3w "a" 2 (by decide) (by decide) (by decide)

/-- Claim C4 fails on the code at one point: Add and Mul are machine
additions, so at the word boundary the evaluator wraps while the stated
reference semantics, ordinary addition, does not. -/
theorem C4_counterexample :
    Expr.eval (.add (.const (W - 1)) (.const 1)) [] = 0 ∧
    specEval (.add (.const (W - 1)) (.const 1)) [] = W ∧
    (0 : Nat) ≠ W := by decide

/-- Claim C4 amended: eval agrees everywhere with the reference semantics
in which Add and Mul are taken modulo the word size and every other
operator reads exactly as the specification states it: constants are
themselves, unresolved names give 0, Sub saturates at zero, Div yields 0
on a zero divisor and the exact quotient otherwise, and the toggle maps
nonzero to 0 and zero to 1. -/
theorem C4_amended (e : Expr) (env : List (String × Nat)) :
    e.eval env = specEvalWrap e env := by
  induction e with
  | const v => rfl
  | var n => rfl
  | add l r ihl ihr => simp [Expr.eval, specEvalWrap, ihl, ihr]
  | sub l r ihl ihr => simp [Expr.eval, specEvalWrap, ihl, ihr]
  | mul l r ihl ihr => simp [Expr.eval, specEvalWrap, ihl, ihr]
  | div l r ihl ihr =>
    simp only [Expr.eval, specEvalWrap, ihl, ihr]
    by_cases h : specEvalWrap r env = 0
    · simp [h]
    · simp [h]
  | toggle e ih => simp [Expr.eval, specEvalWrap, ih]

/-- Claim C5 fails on the code at two points.  A debug build aborts when
an addition overflows the word, so evaluation is not total on every
input; and convert_factor slices a based token at the position two past
its last quote, which is out of bounds, hence a panic, when the quote is
the final character. -/
theorem C5_counterexample :
    Expr.evalChecked (.add (.const (W - 1)) (.const 1)) [] = none ∧
    convertFactor (.numberBased ⟨['1', '2', '3', quoteChar]⟩) = none := by
  decide

/-- Claim C5 amended: expression evaluation never panics on inputs whose
intermediate additions and multiplications fit the 64-bit word, and then
agrees with the wrapping evaluator; literal and factor translation never
faults except on a based token whose final character is its last quote, a
shape the lexer never emits, and defaults every malformed form to the
constant 0; an unknown name evaluates to 0. -/
theorem C5_amended :
    (∀ (e : Expr) (env : List (String × Nat)), e.fitsW env = true →
      e.evalChecked env = some (e.eval env)) ∧
    (∀ fs : FactorShape, shapePanics fs = false →
      (convertFactor fs).isSome = true) ∧
    (∀ (n : String) (env : List (String × Nat)), alookup env n = none →
      Expr.eval (.var n) env = 0) := by
  refine ⟨?_, ?_, ?_⟩
  · intro e env h
    induction e with
    | const v => rfl
    | var n => rfl
    | add l r ihl ihr =>
      simp only [Expr.fitsW, Bool.and_eq_true, decide_eq_true_eq] at h
      obtain ⟨⟨hl, hr⟩, hlt⟩ := h
      simp only [Expr.evalChecked, ihl hl, ihr hr, if_pos hlt, Expr.eval]
      rw [Nat.mod_eq_of_lt hlt]
    | sub l r ihl ihr =>
      simp only [Expr.fitsW, Bool.and_eq_true] at h
      simp only [Expr.evalChecked, ihl h.1, ihr h.2, Expr.eval]
    | mul l r ihl ihr =>
      simp only [Expr.fitsW, Bool.and_eq_true, decide_eq_true_eq] at h
      obtain ⟨⟨hl, hr⟩, hlt⟩ := h
      simp only [Expr.evalChecked, ihl hl, ihr hr, if_pos hlt, Expr.eval]
      rw [Nat.mod_eq_of_lt hlt]
    | div l r ihl ihr =>
      simp only [Expr.fitsW, Bool.and_eq_true] at h
      by_cases hz : r.eval env = 0
      · simp only [Expr.evalChecked, ihr h.1, hz]
        simp [Expr.eval, hz]
      · rw [if_neg hz] at h
        simp only [Expr.evalChecked, ihr h.1, ihl h.2]
        simp [Expr.eval, hz]
    | toggle e ih =>
      simp only [Expr.fitsW] at h
      simp only [Expr.evalChecked, ih h, Expr.eval]
  · intro fs h
    cases fs with
    | identPlain s => simp [convertFactor]
    | identOther => simp [convertFactor]
    | numberBased tok =>
      revert h
      simp only [shapePanics, convertFactor]
      cases hl : lastIdxOf quoteChar tok.data with
      | none =>
        intro h
        simp
      | some pos =>
        intro h
        simp only [decide_eq_false_iff_not] at h
        cases hp : fromStrRadix (tok.data.drop (pos + 2))
            (basedRadix (tok.data[pos + 1]?)) with
        | none => simp [h, hp]
        | some v => simp [h, hp]
    | numberBaseLess tok =>
      simp only [convertFactor]
      cases hp : fromStrRadix tok.data 10 with
      | none => simp
      | some v => simp
    | numberOtherIntegral => simp [convertFactor]
    | numberReal => simp [convertFactor]
    | factorOther => simp [convertFactor]
  · intro n env h
    simp [Expr.eval, h]

/-- Closed instance of the amended claim C5. -/
theorem C5_witness :
    Expr.evalChecked (.add (.const 2) (.const 3)) [] =
      some (Expr.eval (.add (.const 2) (.const 3)) []) ∧
    (convertFactor (.numberBased ⟨['8', quoteChar, 'h', '1']⟩)).isSome = true ∧
    Expr.eval (.var "nope") [] = 0 :=
  ⟨C5_amended.1 _ [] (by decide), C5_amended.2.1 _ (by decide),
    C5_amended.2.2 "nope" [] rfl⟩

/-- Claim C6 fails on the code: reset evaluates each reset expression
against the environment current at that moment, not against the all-zero
or initial environment.  In mC6 the reset branch assigns the value of the
input b to the output a; after the input has been changed to 9, reset
leaves a holding 9, while the reset expression evaluates to 0 against the
all-zero environment and to 5 against the initial environment. -/
theorem C6_counterexample :
    ((mC6.input "b" 9).reset).get "a" = some 9 ∧
    Expr.eval (.var "b") [] = 0 ∧
    Expr.eval (.var "b") [("b", 5)] = 5 ∧
    (9 : Nat) ≠ 0 ∧ (9 : Nat) ≠ 5 := by decide

/-- Claim C6 amended: after reset, every known output signal whose last
reset-branch assignment carries a constant expression, and which no later
reset assignment and no combinational assignment targets, holds exactly
that constant, which is the value of its reset expression against any
environment including the all-zero one. -/
theorem C6_amended (m : Model) (t : String) (c : Nat)
    (l1 l2 : List Assignment)
    (hmem : acontains m.outputs t = true)
    (hsplit : m.resetAssignments = l1 ++ ⟨t, Expr.const c⟩ :: l2)
    (hl2 : ∀ a ∈ l2, a.target ≠ t)
    (hcomb : ∀ a ∈ m.combinational, a.target ≠ t) :
    (m.reset).get t = some c := by
  have key : m.reset =
      ({ (({ m with is_reset := true } : Model).applyList
          (l1 ++ ⟨t, Expr.const c⟩ :: l2)) with
        is_reset := false } : Model).evaluate_combinational := by
    simp only [Model.reset]
    rw [evaluate_sequential_reset_eq]
    have hra : ({ m with is_reset := true } : Model).resetAssignments =
        m.resetAssignments := rfl
    rw [hra, hsplit]
  rw [key]
  unfold Model.get Model.evaluate_combinational
  have hcombeq : ({ (({ m with is_reset := true } : Model).applyList
      (l1 ++ ⟨t, Expr.const c⟩ :: l2)) with
        is_reset := false } : Model).combinational = m.combinational := by
    show (({ m with is_reset := true } : Model).applyList
      (l1 ++ ⟨t, Expr.const c⟩ :: l2)).combinational = m.combinational
    rw [applyList_combinational]
  rw [hcombeq]
  rw [applyList_outputs_lookup_ne _ _ _ hcomb]
  show alookup ((({ m with is_reset := true } : Model).applyList
    (l1 ++ ⟨t, Expr.const c⟩ :: l2)).outputs) t = some c
  have happ : ({ m with is_reset := true } : Model).applyList
      (l1 ++ ⟨t, Expr.const c⟩ :: l2) =
      ((({ m with is_reset := true } : Model).applyList l1).applyAssignment
        ⟨t, Expr.const c⟩).applyList l2 := by
    unfold Model.applyList
    rw [List.foldl_append, List.foldl_cons]
  rw [happ]
  rw [applyList_outputs_lookup_ne _ _ _ hl2]
  apply applyAssignment_const_lookup
  have hkeys : keysOf ((({ m with is_reset := true } : Model).applyList
      l1).outputs) = keysOf m.outputs := by
    rw [applyList_outputs_keys]
  rw [acontains_of_keys_eq _ m.outputs hkeys t]
  exact hmem

/-- Closed instance of the amended claim C6: a constant reset assignment
lands on its output. -/
theorem C6_witness : (mC6w.reset).get "a" = some 3 :=
  C6_amended mC6w "a" 3 [] [] (by decide) (by decide) (by decide) (by decide)

/-! ## Lemmas about the scheduler -/

theorem findMin_single (c : String) (t : Nat) (ht : t < UMAX) :
    findMinClock [(c, t)] = (t, c) := by
  unfold findMinClock
  simp [ht]

theorem step_noop (s : Simulator)
    (h : (findMinClock s.time_to_next_clock_ns).1 = UMAX) : s.step = s := by
  simp only [Simulator.step]
  rw [if_pos h]

theorem step_noop_empty (s : Simulator) (h : s.time_to_next_clock_ns = []) :
    s.step = s := by
  apply step_noop
  rw [h]
  rfl

theorem step_time_eq (s : Simulator)
    (h : ¬ (findMinClock s.time_to_next_clock_ns).1 = UMAX) :
    (s.step).simulation_time_ns =
      (s.simulation_time_ns + (findMinClock s.time_to_next_clock_ns).1) % W := by
  simp only [Simulator.step]
  rw [if_neg h]
  split
  · rfl
  · split <;> rfl

theorem step_intervals (s : Simulator) :
    (s.step).clock_intervals = s.clock_intervals := by
  simp only [Simulator.step]
  split
  · rfl
  · split
    · rfl
    · split <;> rfl

theorem step_ttn_eq (s : Simulator)
    (hM : ¬ (findMinClock s.time_to_next_clock_ns).1 = UMAX)
    (hc : ¬ (findMinClock s.time_to_next_clock_ns).2 = "") :
    (s.step).time_to_next_clock_ns =
      ainsert
        (s.time_to_next_clock_ns.map
          (fun p => (p.1, p.2 - (findMinClock s.time_to_next_clock_ns).1)))
        (findMinClock s.time_to_next_clock_ns).2
        (((alookup s.clock_intervals
          (findMinClock s.time_to_next_clock_ns).2).getD 0) / 2) := by
  simp only [Simulator.step]
  rw [if_neg hM, if_neg hc]
  split <;> rfl

/-- The minimum scan of step, specified: on a nonempty list of pending
times all below the sentinel, it returns an attained value that bounds
every entry from below. -/
theorem foldlMin_spec (l : List (String × Nat)) :
    ∀ acc : Nat × String,
      (l.foldl (fun acc p => if p.2 < acc.1 then (p.2, p.1) else acc) acc).1 ≤
        acc.1 ∧
      (∀ p ∈ l,
        (l.foldl (fun acc p => if p.2 < acc.1 then (p.2, p.1) else acc) acc).1 ≤
          p.2) ∧
      ((l.foldl (fun acc p => if p.2 < acc.1 then (p.2, p.1) else acc) acc) =
          acc ∨
        ∃ p ∈ l,
          (l.foldl (fun acc p => if p.2 < acc.1 then (p.2, p.1) else acc) acc) =
            (p.2, p.1)) := by
  induction l with
  | nil => exact fun acc => ⟨le_refl _, by simp, Or.inl rfl⟩
  | cons q rest ih =>
    intro acc
    simp only [List.foldl_cons]
    by_cases hq : q.2 < acc.1
    · rw [if_pos hq]
      obtain ⟨ih1, ih2, ih3⟩ := ih (q.2, q.1)
      refine ⟨ih1.trans (Nat.le_of_lt hq), ?_, ?_⟩
      · intro p hp
        rcases List.mem_cons.mp hp with hp | hp
        · rw [hp]
          exact ih1
        · exact ih2 p hp
      · rcases ih3 with ih3 | ⟨p, hp, hpe⟩
        · exact Or.inr ⟨q, List.mem_cons_self q rest, ih3⟩
        · exact Or.inr ⟨p, List.mem_cons_of_mem q hp, hpe⟩
    · rw [if_neg hq]
      obtain ⟨ih1, ih2, ih3⟩ := ih acc
      refine ⟨ih1, ?_, ?_⟩
      · intro p hp
        rcases List.mem_cons.mp hp with hp | hp
        · rw [hp]
          exact le_trans ih1 (Nat.le_of_not_lt hq)
        · exact ih2 p hp
      · rcases ih3 with ih3 | ⟨p, hp, hpe⟩
        · exact Or.inl ih3
        · exact Or.inr ⟨p, List.mem_cons_of_mem q hp, hpe⟩

theorem findMin_spec (l : List (String × Nat)) (hne : l ≠ [])
    (hb : ∀ p ∈ l, p.2 < UMAX) :
    ¬ (findMinClock l).1 = UMAX ∧
    ((findMinClock l).2, (findMinClock l).1) ∈ l ∧
    (∀ p ∈ l, (findMinClock l).1 ≤ p.2) := by
  obtain ⟨_, h2, h3⟩ := foldlMin_spec l (UMAX, "")
  cases l with
  | nil => exact absurd rfl hne
  | cons q rest =>
    have hlt : (findMinClock (q :: rest)).1 < UMAX :=
      lt_of_le_of_lt (h2 q (List.mem_cons_self q rest))
        (hb q (List.mem_cons_self q rest))
    refine ⟨Nat.ne_of_lt hlt, ?_, h2⟩
    rcases h3 with h3 | ⟨p, hp, hpe⟩
    · exfalso
      have hx : (findMinClock (q :: rest)).1 = UMAX := by
        unfold findMinClock
        rw [h3]
      exact absurd hx (Nat.ne_of_lt hlt)
    · have e : findMinClock (q :: rest) = (p.2, p.1) := hpe
      rw [e]
      simpa using hp

theorem keysOf_map_value {α β : Type} (l : List (String × α))
    (f : String × α → β) :
    keysOf (l.map (fun p => (p.1, f p))) = keysOf l := by
  unfold keysOf
  rw [List.map_map]
  rfl

theorem map_sub_zero (l : List (String × Nat)) :
    l.map (fun p => (p.1, p.2 - 0)) = l := by
  simp

/-- Subtracting a count of a replaced zero entry: replacing the unique
entry of key c, currently holding 0, by a positive value decreases the
number of zero entries by one. -/
theorem zeroCount_ainsert (l : List (String × Nat)) (c : String) (v : Nat)
    (hnd : (keysOf l).Nodup) (hmem : (c, 0) ∈ l) (hv : 1 ≤ v) :
    (ainsert l c v).countP (fun p => p.2 == 0) + 1 =
      l.countP (fun p => p.2 == 0) := by
  have hc : acontains l c = true := by
    rw [acontains_iff_mem]
    exact List.mem_map_of_mem Prod.fst hmem
  unfold ainsert
  rw [if_pos hc]
  induction l with
  | nil => cases hmem
  | cons q rest ih =>
    simp only [keysOf, List.map_cons, List.nodup_cons] at hnd
    by_cases hqc : q.1 = c
    · have hq : q = (c, 0) := by
        rcases List.mem_cons.mp hmem with hm | hm
        · exact hm.symm
        · exfalso
          exact hnd.1 (hqc ▸ List.mem_map_of_mem Prod.fst hm)
      have hrest : rest.map (fun p => if p.1 = c then (c, v) else p) = rest := by
        apply map_replace_eq_self
        intro p hp hpc
        exact hnd.1 (hqc ▸ hpc ▸ List.mem_map_of_mem Prod.fst hp)
      simp only [List.map_cons, if_pos hqc, hrest]
      rw [List.countP_cons, List.countP_cons, hq]
      have hvz : ((c, v).2 == 0) = false := by
        simp
        omega
      simp [hvz]
    · have hm : (c, 0) ∈ rest := by
        rcases List.mem_cons.mp hmem with hm | hm
        · exfalso
          apply hqc
          rw [← hm]
        · exact hm
      have hc' : acontains rest c = true := by
        rw [acontains_iff_mem]
        exact List.mem_map_of_mem Prod.fst hm
      simp only [List.map_cons, if_neg hqc]
      rw [List.countP_cons, List.countP_cons]
      have := ih (by simpa [keysOf] using hnd.2) hm hc'
      omega

/-- One step preserves the well-formedness of the scheduler state. -/
theorem bound_umax (l : List (String × Nat))
    (hb : ∀ p ∈ l, p.2 < 2 ^ 63) : ∀ p ∈ l, p.2 < UMAX := by
  intro p hp
  have := hb p hp
  unfold UMAX
  omega

theorem step_inv (s : Simulator) (hInv : SimInv s) : SimInv s.step := by
  obtain ⟨hne, hnd, hk, hb⟩ := hInv
  obtain ⟨hM, hmem, hmin⟩ :=
    findMin_spec s.time_to_next_clock_ns hne (bound_umax _ hb)
  have hcne : ¬ (findMinClock s.time_to_next_clock_ns).2 = "" := by
    have := (hk _ (List.mem_map_of_mem Prod.fst hmem)).1
    simpa using this
  have httn := step_ttn_eq s hM hcne
  have hkeys : keysOf (s.step).time_to_next_clock_ns =
      keysOf s.time_to_next_clock_ns := by
    rw [httn]
    have hmk : keysOf (s.time_to_next_clock_ns.map
        (fun p => (p.1, p.2 - (findMinClock s.time_to_next_clock_ns).1))) =
        keysOf s.time_to_next_clock_ns :=
      keysOf_map_value s.time_to_next_clock_ns _
    rw [keysOf_ainsert_of_contains, hmk]
    rw [acontains_iff_mem, hmk]
    exact List.mem_map_of_mem Prod.fst hmem
  refine ⟨?_, ?_, ?_, ?_⟩
  · intro hx
    apply hne
    have : keysOf s.time_to_next_clock_ns = [] := by
      rw [← hkeys, hx]
      rfl
    unfold keysOf at this
    exact List.map_eq_nil_iff.mp this
  · rw [hkeys]
    exact hnd
  · intro k hkk
    rw [hkeys] at hkk
    rw [step_intervals]
    exact hk k hkk
  · intro p hp
    rw [httn] at hp
    rcases mem_of_ainsert _ _ _ p hp with hp | hp
    · rw [hp]
      exact (hk _ (List.mem_map_of_mem Prod.fst hmem)).2.2
    · obtain ⟨q, hq, hqe⟩ := List.mem_map.mp hp
      have : p.2 ≤ q.2 := by
        rw [← hqe]
        exact Nat.sub_le _ _
      exact lt_of_le_of_lt this (hb q hq)

/-- One step strictly decreases the termination potential while the end
time has not been reached. -/
theorem step_potential (s : Simulator) (endT : Nat) (hInv : SimInv s)
    (hET : endT ≤ 2 ^ 63) (hlt : s.simulation_time_ns < endT) :
    simPotential endT s.step < simPotential endT s := by
  obtain ⟨hne, hnd, hk, hb⟩ := hInv
  obtain ⟨hM, hmem, hmin⟩ :=
    findMin_spec s.time_to_next_clock_ns hne (bound_umax _ hb)
  have hcne : ¬ (findMinClock s.time_to_next_clock_ns).2 = "" := by
    have := (hk _ (List.mem_map_of_mem Prod.fst hmem)).1
    simpa using this
  have httn := step_ttn_eq s hM hcne
  have hMlt : (findMinClock s.time_to_next_clock_ns).1 < 2 ^ 63 := hb _ hmem
  have hW : W = 2 ^ 64 := rfl
  have htime : (s.step).simulation_time_ns =
      s.simulation_time_ns + (findMinClock s.time_to_next_clock_ns).1 := by
    rw [step_time_eq s hM, Nat.mod_eq_of_lt (by omega)]
  have hmk : keysOf (s.time_to_next_clock_ns.map
      (fun p => (p.1, p.2 - (findMinClock s.time_to_next_clock_ns).1))) =
      keysOf s.time_to_next_clock_ns :=
    keysOf_map_value s.time_to_next_clock_ns _
  have hkeys : keysOf (s.step).time_to_next_clock_ns =
      keysOf s.time_to_next_clock_ns := by
    rw [httn, keysOf_ainsert_of_contains, hmk]
    rw [acontains_iff_mem, hmk]
    exact List.mem_map_of_mem Prod.fst hmem
  have hlen : (s.step).time_to_next_clock_ns.length =
      s.time_to_next_clock_ns.length := by
    have := congrArg List.length hkeys
    simpa [keysOf] using this
  have hhalf : 1 ≤ ((alookup s.clock_intervals
      (findMinClock s.time_to_next_clock_ns).2).getD 0) / 2 :=
    (hk _ (List.mem_map_of_mem Prod.fst hmem)).2.1
  by_cases hz : (findMinClock s.time_to_next_clock_ns).1 = 0
  · -- a zero-advance step: the time is unchanged and the unique zero
    -- entry of the selected domain is re-armed to a positive value
    have httn0 : (s.step).time_to_next_clock_ns =
        ainsert s.time_to_next_clock_ns
          (findMinClock s.time_to_next_clock_ns).2
          (((alookup s.clock_intervals
            (findMinClock s.time_to_next_clock_ns).2).getD 0) / 2) := by
      rw [httn, hz, map_sub_zero]
    have hmem0 : ((findMinClock s.time_to_next_clock_ns).2, 0) ∈
        s.time_to_next_clock_ns := by
      have := hmem
      rw [hz] at this
      exact this
    have hzc := zeroCount_ainsert s.time_to_next_clock_ns
      (findMinClock s.time_to_next_clock_ns).2 _ hnd hmem0 hhalf
    unfold simPotential zeroCount
    rw [htime, hz, Nat.add_zero, hlen, httn0]
    omega
  · -- a positive advance: the distance to the end time shrinks
    unfold simPotential
    rw [htime, hlen]
    have hE : endT - (s.simulation_time_ns +
        (findMinClock s.time_to_next_clock_ns).1) ≤
        endT - s.simulation_time_ns - 1 := by omega
    have hZ : zeroCount s.step ≤ s.time_to_next_clock_ns.length := by
      unfold zeroCount
      rw [← hlen]
      exact List.countP_le_length _
    obtain ⟨E1, hE1⟩ : ∃ E1, endT - s.simulation_time_ns = E1 + 1 :=
      ⟨endT - s.simulation_time_ns - 1, by omega⟩
    have h2 : (endT - (s.simulation_time_ns +
        (findMinClock s.time_to_next_clock_ns).1)) *
          (s.time_to_next_clock_ns.length + 1) ≤
        E1 * (s.time_to_next_clock_ns.length + 1) :=
      Nat.mul_le_mul_right _ (by omega)
    have h3 : (E1 + 1) * (s.time_to_next_clock_ns.length + 1) =
        E1 * (s.time_to_next_clock_ns.length + 1) +
          (s.time_to_next_clock_ns.length + 1) := Nat.succ_mul _ _
    rw [hE1, h3]
    omega

/-- With a well-formed state, enough fuel drives the run loop past any
end time. -/
theorem runAux_reaches (endT : Nat) (hET : endT ≤ 2 ^ 63) :
    ∀ (fuel : Nat) (s : Simulator), SimInv s →
      simPotential endT s ≤ fuel →
      endT ≤ (Simulator.runAux fuel endT s).simulation_time_ns := by
  intro fuel
  induction fuel with
  | zero =>
    intro s hInv hpot
    unfold simPotential at hpot
    simp only [Simulator.runAux]
    by_cases h : endT - s.simulation_time_ns = 0
    · omega
    · exfalso
      have : 1 * 1 ≤ (endT - s.simulation_time_ns) *
          (s.time_to_next_clock_ns.length + 1) :=
        Nat.mul_le_mul (by omega) (by omega)
      omega
  | succ fuel ih =>
    intro s hInv hpot
    simp only [Simulator.runAux]
    by_cases ht : s.simulation_time_ns < endT
    · rw [if_pos ht]
      apply ih _ (step_inv s hInv)
      have := step_potential s endT hInv hET ht
      omega
    · rw [if_neg ht]
      omega

/-- Claim C7 fails on the code: a clock domain of period 1 has half
period 0, so after its first edge its pending time is always 0 and every
step advances the simulation time by 0.  The simulator simC7 has one
clock domain, yet its step makes no progress and 100 loop iterations of
run toward end time 1 leave the time at 0: run(1) never terminates. -/
theorem C7_counterexample :
    simC7.clock_intervals ≠ [] ∧
    (simC7.step).simulation_time_ns = simC7.simulation_time_ns ∧
    (Simulator.runAux 100 1 simC7).simulation_time_ns = 0 := by decide

/-- Claim C7 amended: the simulation time never decreases at a step whose
u64 time addition does not overflow, the wrap at 2 to the 64 being the
only decrease a release build can produce (a debug build aborts there);
with no clock domain a step is a no-op; for a well-formed scheduler
(at least one domain, distinct nonempty names, periods between 2 and the
word bound) each step advances the time by exactly the minimum pending
time across all domains reduced modulo the word size, a minimum that is
attained and bounds every pending entry; and every run call whose end
time is at most 2 to the 63, half the u64 range, terminates: some fuel
drives the loop past the end time, and no time addition wraps on the
way.  The progress clause of the original claim is dropped: the minimum
pending time is 0 at a simultaneous-edge tie or with a period below 2,
so a single step need not advance the time, yet termination still holds
for well-formed periods within the bound. -/
theorem C7_scheduler (s : Simulator) (endT : Nat) :
    (s.simulation_time_ns + (findMinClock s.time_to_next_clock_ns).1 < W →
      s.simulation_time_ns ≤ (s.step).simulation_time_ns) ∧
    (s.time_to_next_clock_ns = [] → s.step = s) ∧
    (SimInv s →
      (s.step).simulation_time_ns =
        (s.simulation_time_ns + (findMinClock s.time_to_next_clock_ns).1) % W ∧
      (∀ p ∈ s.time_to_next_clock_ns,
        (findMinClock s.time_to_next_clock_ns).1 ≤ p.2) ∧
      (∃ p ∈ s.time_to_next_clock_ns,
        p.2 = (findMinClock s.time_to_next_clock_ns).1)) ∧
    (SimInv s → endT ≤ 2 ^ 63 → ∃ fuel,
      endT ≤ (Simulator.runAux fuel endT s).simulation_time_ns) := by
  refine ⟨?_, ?_, ?_, ?_⟩
  · intro hnw
    by_cases h : (findMinClock s.time_to_next_clock_ns).1 = UMAX
    · rw [step_noop s h]
    · rw [step_time_eq s h, Nat.mod_eq_of_lt hnw]
      exact Nat.le_add_right _ _
  · exact step_noop_empty s
  · intro hInv
    obtain ⟨hne, hnd, hk, hb⟩ := hInv
    obtain ⟨hM, hmem, hmin⟩ :=
      findMin_spec s.time_to_next_clock_ns hne (bound_umax _ hb)
    exact ⟨step_time_eq s hM, hmin, ⟨_, hmem, rfl⟩⟩
  · intro hInv hET
    exact ⟨simPotential endT s,
      runAux_reaches endT hET _ s hInv (le_refl _)⟩

/-- Closed instance of the amended claim C7 on a two-domain scheduler. -/
theorem C7_witness :
    (simC7w.step).simulation_time_ns =
      (simC7w.simulation_time_ns +
        (findMinClock simC7w.time_to_next_clock_ns).1) % W ∧
    (∃ fuel, 10 ≤ (Simulator.runAux fuel 10 simC7w).simulation_time_ns) :=
  ⟨((C7_scheduler simC7w 10).2.2.1 (by decide)).1,
    (C7_scheduler simC7w 10).2.2.2 (by decide) (by decide)⟩

/-! ## Single clock domain: exact stepping -/

/-- Construction followed by reset lands on the canonical state at step
count zero. -/
theorem reset_new_single (m : Model) (P : Nat) :
    (Simulator.new m [("clk", P)]).reset = skSim (m.reset) P 0 := by
  simp [Simulator.new, Simulator.reset, skSim, ainsert, acontains, alookup,
    Nat.zero_mul]

/-- One step from the canonical single-domain state: the time advances by
the half period, the level toggles, and the model clock fires exactly
when the level was low, that is, after an even number of steps. -/
theorem step_skSim (m : Model) (P k : Nat) (_h1 : 1 ≤ P / 2)
    (h2 : P / 2 < UMAX) (hkW : k * (P / 2) + P / 2 < W) :
    (skSim m P k).step =
      skSim (if k % 2 == 0 then m.clock else m) P (k + 1) ∧
    (skSim m P k).stepRising = (k % 2 == 0) := by
  have hmin : findMinClock [("clk", P / 2)] = (P / 2, "clk") :=
    findMin_single _ _ h2
  have hne : ¬ (P / 2) = UMAX := Nat.ne_of_lt h2
  have hmod : (k * (P / 2) + P / 2) % W = k * (P / 2) + P / 2 :=
    Nat.mod_eq_of_lt hkW
  constructor
  · rcases Nat.mod_two_eq_zero_or_one k with hk | hk
    · have hk1 : (k + 1) % 2 = 1 := by omega
      simp [Simulator.step, skSim, hmin, hne, ainsert, acontains, alookup,
        hk, hk1, hmod, Nat.succ_mul]
    · have hk1 : (k + 1) % 2 = 0 := by omega
      simp [Simulator.step, skSim, hmin, hne, ainsert, acontains, alookup,
        hk, hk1, hmod, Nat.succ_mul]
  · rcases Nat.mod_two_eq_zero_or_one k with hk | hk
    · simp [Simulator.stepRising, skSim, hmin, hne, alookup, hk]
    · simp [Simulator.stepRising, skSim, hmin, hne, alookup, hk]

/-- The rising-edge count of the run loop from the canonical state: with
K the total number of steps the loop performs, the edges seen from step k
onward number the even step indices in the interval from k to K. -/
theorem runEdges_skSim (P : Nat) (h1 : 1 ≤ P / 2) (h2 : P / 2 < UMAX)
    (endT : Nat) :
    ∀ (fuel k K : Nat) (m : Model), k ≤ K → endT ≤ K * (P / 2) →
      (k < K → (K - 1) * (P / 2) < endT) → K - k ≤ fuel →
      K * (P / 2) < W →
      Simulator.runEdges fuel endT (skSim m P k) =
        (K + 1) / 2 - (k + 1) / 2 := by
  intro fuel
  induction fuel with
  | zero =>
    intro k K m hkK hend hlt hfuel hKW
    have : k = K := by omega
    subst this
    simp only [Simulator.runEdges]
    omega
  | succ fuel ih =>
    intro k K m hkK hend hlt hfuel hKW
    by_cases hk : k < K
    · have hguard : (skSim m P k).simulation_time_ns < endT := by
        have hle : k ≤ K - 1 := by omega
        have : k * (P / 2) ≤ (K - 1) * (P / 2) :=
          Nat.mul_le_mul_right _ hle
        have := lt_of_le_of_lt this (hlt hk)
        simpa [skSim] using this
      have hkW : k * (P / 2) + P / 2 < W := by
        have hup : (k + 1) * (P / 2) ≤ K * (P / 2) :=
          Nat.mul_le_mul_right _ (by omega)
        have hsm : (k + 1) * (P / 2) = k * (P / 2) + P / 2 :=
          Nat.succ_mul _ _
        omega
      simp only [Simulator.runEdges]
      rw [if_pos hguard]
      rw [(step_skSim m P k h1 h2 hkW).1, (step_skSim m P k h1 h2 hkW).2]
      rw [ih (k + 1) K _ (by omega) hend (fun _ => hlt hk) (by omega) hKW]
      rcases Nat.mod_two_eq_zero_or_one k with hp | hp
      · simp only [hp]
        simp
        omega
      · simp only [hp]
        simp
        omega
    · have hkeq : k = K := by omega
      subst hkeq
      have hguard : ¬ (skSim m P k).simulation_time_ns < endT := by
        simp only [skSim]
        omega
      simp only [Simulator.runEdges]
      rw [if_neg hguard]
      omega

/-- The run loop from the canonical state terminates on the canonical
state at step count K. -/
theorem runAux_skSim (P : Nat) (h1 : 1 ≤ P / 2) (h2 : P / 2 < UMAX)
    (endT : Nat) :
    ∀ (fuel k K : Nat) (m : Model), k ≤ K → endT ≤ K * (P / 2) →
      (k < K → (K - 1) * (P / 2) < endT) → K - k ≤ fuel →
      K * (P / 2) < W →
      ∃ m2, Simulator.runAux fuel endT (skSim m P k) = skSim m2 P K := by
  intro fuel
  induction fuel with
  | zero =>
    intro k K m hkK hend hlt hfuel hKW
    have : k = K := by omega
    subst this
    exact ⟨m, rfl⟩
  | succ fuel ih =>
    intro k K m hkK hend hlt hfuel hKW
    by_cases hk : k < K
    · have hguard : (skSim m P k).simulation_time_ns < endT := by
        have hle : k ≤ K - 1 := by omega
        have : k * (P / 2) ≤ (K - 1) * (P / 2) :=
          Nat.mul_le_mul_right _ hle
        have := lt_of_le_of_lt this (hlt hk)
        simpa [skSim] using this
      have hkW : k * (P / 2) + P / 2 < W := by
        have hup : (k + 1) * (P / 2) ≤ K * (P / 2) :=
          Nat.mul_le_mul_right _ (by omega)
        have hsm : (k + 1) * (P / 2) = k * (P / 2) + P / 2 :=
          Nat.succ_mul _ _
        omega
      simp only [Simulator.runAux]
      rw [if_pos hguard]
      rw [(step_skSim m P k h1 h2 hkW).1]
      exact ih (k + 1) K _ (by omega) hend (fun _ => hlt hk) (by omega) hKW
    · have hkeq : k = K := by omega
      subst hkeq
      have hguard : ¬ (skSim m P k).simulation_time_ns < endT := by
        simp only [skSim]
        omega
      simp only [Simulator.runAux]
      rw [if_neg hguard]
      exact ⟨m, rfl⟩

/-- Claim C1 fails on the code: with a single domain of period 1000 the
formula of the claim predicts 1 rising edge for run(1001), but the run
performs the step that crosses the end time in full, processing a rising
edge at 1500 nanoseconds, for a total of 2 model clock invocations.  The
second conjunct certifies that 12 units of fuel complete the loop. -/
theorem C1_counterexample :
    Simulator.runEdges 12 1001 simC1 = 2 ∧
    1001 ≤ (Simulator.runAux 12 1001 simC1).simulation_time_ns ∧
    claimedEdgeCount 1000 1001 = 1 := by decide

/-- Claim C1 amended: for a single clock domain of period P, with P at
least 2 and below the word bound, starting low immediately after reset,
run(D) for a duration D of at most 2 to the 63 invokes the model clock
exactly ceil(ceil(D / (P/2)) / 2) times, written here with integer
arithmetic; the loop completes within D + 1 steps and no u64 time
addition wraps on the way (above that duration bound the wrapping time
can orbit below the end time and the run need not terminate).  At
P = 1000, D = 5000 this count is 5, matching the example of the
specification; the formula of the claim agrees with this one exactly
when the last loop step is not a rising edge past the end time. -/
theorem C1_edge_count (P D fuel : Nat) (m : Model) (hP : 2 ≤ P)
    (hPW : P < 2 ^ 64) (hD63 : D ≤ 2 ^ 63) (hf : D + 1 ≤ fuel) :
    Simulator.runEdges fuel D ((Simulator.new m [("clk", P)]).reset) =
      ((D + P / 2 - 1) / (P / 2) + 1) / 2 ∧
    D ≤ (Simulator.runAux fuel D
      ((Simulator.new m [("clk", P)]).reset)).simulation_time_ns := by
  have h1 : 1 ≤ P / 2 := by omega
  have h2 : P / 2 < UMAX := by
    unfold UMAX
    omega
  have hW : W = 2 ^ 64 := rfl
  have hh63 : P / 2 < 2 ^ 63 := by omega
  rw [reset_new_single]
  by_cases hD : D = 0
  · subst hD
    constructor
    · rw [runEdges_skSim P h1 h2 0 fuel 0 0 (m.reset) (le_refl 0)
        (by omega) (by omega) (by omega) (by simp [hW])]
      have hz : (0 + P / 2 - 1) / (P / 2) = 0 :=
        Nat.div_eq_of_lt (by omega)
      rw [hz]
    · omega
  · have h0 : 0 < P / 2 := by omega
    obtain ⟨q, hq⟩ : ∃ q, (D - 1) / (P / 2) = q := ⟨_, rfl⟩
    obtain ⟨r, hr⟩ : ∃ r, (D - 1) % (P / 2) = r := ⟨_, rfl⟩
    have hmod : P / 2 * q + r = D - 1 := by
      rw [← hq, ← hr]
      exact Nat.div_add_mod _ _
    have hmlt : r < P / 2 := by
      rw [← hr]
      exact Nat.mod_lt _ h0
    have hKmul : (q + 1) * (P / 2) = P / 2 * q + P / 2 := by ring
    have hend : D ≤ (q + 1) * (P / 2) := by
      rw [hKmul]
      omega
    have hltD : ((q + 1) - 1) * (P / 2) < D := by
      have hsimp : (q + 1) - 1 = q := Nat.add_sub_cancel _ _
      rw [hsimp]
      have hcm : q * (P / 2) = P / 2 * q := Nat.mul_comm _ _
      omega
    have hqD : q ≤ D - 1 := by
      rw [← hq]
      exact Nat.div_le_self _ _
    have hfuel : (q + 1) - 0 ≤ fuel := by omega
    have hform : (D + P / 2 - 1) / (P / 2) = q + 1 := by
      have hDh : D + P / 2 - 1 = (D - 1) + P / 2 := by omega
      rw [hDh, Nat.add_div_right _ h0, hq]
    have hKW : (q + 1) * (P / 2) < W := by
      rw [hKmul]
      omega
    constructor
    · rw [runEdges_skSim P h1 h2 D fuel 0 (q + 1) (m.reset) (by omega)
        hend (fun _ => hltD) hfuel hKW, hform]
      omega
    · obtain ⟨m2, hm2⟩ := runAux_skSim P h1 h2 D fuel 0 (q + 1) (m.reset)
        (by omega) hend (fun _ => hltD) hfuel hKW
      rw [hm2]
      simp only [skSim]
      exact hend

/-- Closed instance of the amended claim C1, which is also the example of
the specification: period 1000, run(5000), exactly 5 rising edges. -/
theorem C1_witness :
    Simulator.runEdges 5001 5000
      ((Simulator.new trivModel [("clk", 1000)]).reset) = 5 ∧
    5000 ≤ (Simulator.runAux 5001 5000
      ((Simulator.new trivModel [("clk", 1000)]).reset)).simulation_time_ns := by
  obtain ⟨hc, ht⟩ := C1_edge_count 1000 5000 5001 trivModel (by decide)
    (by decide) (by decide) (by decide)
  exact ⟨hc.trans (by decide), ht⟩

end VerylSim
